import Mathlib

/-!
Verification of the smallchain blockchain core.

This file shallowly embeds the data model and the operations of the
repository (`block.rs`, `blockchain.rs`, `mempool.rs`, `node.rs`) in Lean.
`u64` balances are modelled as `Nat`; a subtraction that would underflow is a
panic of the Rust program (`Except.error PanicKind.underflow`), matching the
checked arithmetic of the source's `-=` on `u64`.  SHA-256 is abstracted: every
chain operation takes the hash function `hf : Block → BlockHash` as a
parameter, and `injHash` below provides a concrete computable injective
instance used to evaluate concrete scenarios.
-/

/-- Rust `Address(u64)`: an opaque 64-bit account identifier. -/
abbrev Address := Nat

/-- Rust `TransactionId(u64)`. -/
abbrev TransactionId := Nat

/-- Rust `Transaction { sender, receiver, amount }`. -/
structure Transaction where
  sender : Address
  receiver : Address
  amount : Nat

deriving DecidableEq

/-- Rust `BlockHash(Vec<u8>)`: a byte string. -/
structure BlockHash where
  bytes : List Nat

deriving DecidableEq

/-- Rust `BlockTransaction { id, prefix_hash, info }`. -/
structure BlockTransaction where
  id : TransactionId
  prefixHash : BlockHash
  info : Transaction

deriving DecidableEq

/-- Rust `Block { transactions, prefix_hash, miner, nonce }`. -/
structure Block where
  transactions : List BlockTransaction
  prefixHash : BlockHash
  miner : Address
  nonce : Nat

deriving DecidableEq

/-- `Block::genesis()`: empty transactions, empty prefix hash, miner 0, nonce 0. -/
def genesisBlock : Block := ⟨[], ⟨[]⟩, 0, 0⟩

/-- `Block::is_genesis`: the prefix hash is the empty byte string. -/
def Block.isGenesis (b : Block) : Bool := b.prefixHash.bytes = ([] : List Nat)

/-- `COINS_PER_MINED_BLOCK` from `constants.rs`. -/
def COINS_PER_MINED_BLOCK : Nat := 1000

/-- `MINING_DIFFICULTY` from `constants.rs`. -/
def MINING_DIFFICULTY : Nat := 20

/-- `u8::leading_zeros` of a byte value. -/
def u8LeadingZeros (v : Nat) : Nat :=
  if 128 ≤ v then 0 else if 64 ≤ v then 1 else if 32 ≤ v then 2
  else if 16 ≤ v then 3 else if 8 ≤ v then 4 else if 4 ≤ v then 5
  else if 2 ≤ v then 6 else if 1 ≤ v then 7 else 8

/-- `BlockHash::leading_zero_bits`: count 8 per leading zero byte, then the
leading zeros of the first nonzero byte. -/
def leadingZeroBits : List Nat → Nat
  | [] => 0
  | v :: rest => if v = 0 then 8 + leadingZeroBits rest else u8LeadingZeros v

/-- `Block::is_valid_nonce` relative to a hash function:
`hash(block).leading_zero_bits() >= MINING_DIFFICULTY`. -/
def isValidNonce (hf : Block → BlockHash) (b : Block) : Bool :=
  MINING_DIFFICULTY ≤ leadingZeroBits (hf b).bytes

/-- `attempt_mining_block`: walk the nonces in order, return the first block
(with the given transactions, prefix hash and miner) whose nonce is valid. -/
def attemptMiningBlock (hf : Block → BlockHash) (prefixHash : BlockHash)
    (miner : Address) (transactions : List BlockTransaction) :
    List Nat → Option Block
  | [] => none
  | n :: ns =>
    let b : Block := ⟨transactions, prefixHash, miner, n⟩
    if isValidNonce hf b then some b
    else attemptMiningBlock hf prefixHash miner transactions ns

/-! ### Finite maps as association lists

`HashMap<Address, u64>` and `HashMap<BlockHash, Block>` are modelled as
association lists; `mapSet` updates the first occurrence of a key or appends
a fresh entry, which models `entry(k).or_insert(0)` followed by a write. -/

/-- Lookup in a balance map; missing keys read as absent. -/
def mapFind? : List (Address × Nat) → Address → Option Nat
  | [], _ => none
  | (k, v) :: rest, a => if k = a then some v else mapFind? rest a

/-- `balance_of`: lookup with default 0. -/
def mapGet (m : List (Address × Nat)) (a : Address) : Nat :=
  (mapFind? m a).getD 0

/-- Write a value: update the first entry with this key, or append the key. -/
def mapSet : List (Address × Nat) → Address → Nat → List (Address × Nat)
  | [], a, v => [(a, v)]
  | (k, w) :: rest, a, v =>
    if k = a then (k, v) :: rest else (k, w) :: mapSet rest a v

/-- `entry(a).or_insert(0)` with no write: materializes the key at 0. -/
def ensureKey (m : List (Address × Nat)) (a : Address) : List (Address × Nat) :=
  mapSet m a (mapGet m a)

/-- `*balance_mut(a) += v`. -/
def mapAdd (m : List (Address × Nat)) (a : Address) (v : Nat) :
    List (Address × Nat) :=
  mapSet m a (mapGet m a + v)

/-- `*balance_mut(a) -= v` when the caller has checked `v ≤` the balance. -/
def mapSub (m : List (Address × Nat)) (a : Address) (v : Nat) :
    List (Address × Nat) :=
  mapSet m a (mapGet m a - v)

/-- `*balance_mut(a) -= v` with the u64 underflow check: `none` is the panic
of a debug build. -/
def mapSub? (m : List (Address × Nat)) (a : Address) (v : Nat) :
    Option (List (Address × Nat)) :=
  if mapGet m a < v then none else some (mapSub m a v)

/-- Lookup in the `blocks` map. -/
def bfind? : List (BlockHash × Block) → BlockHash → Option Block
  | [], _ => none
  | (k, v) :: rest, h => if k = h then some v else bfind? rest h

/-- `HashMap::insert`: overwrite the entry if the key exists, else append. -/
def binsert : List (BlockHash × Block) → BlockHash → Block →
    List (BlockHash × Block)
  | [], h, b => [(h, b)]
  | (k, v) :: rest, h, b =>
    if k = h then (h, b) :: rest else (k, v) :: binsert rest h b

/-- `HashMap::remove`: drop the first entry with this key. -/
def bremove : List (BlockHash × Block) → BlockHash → List (BlockHash × Block)
  | [], _ => []
  | (k, v) :: rest, h => if k = h then rest else (k, v) :: bremove rest h

/-! ### The chain -/

/-- Rust `BlockChain { chain, blocks, balance }`. -/
structure BlockChain where
  chain : List BlockHash
  blocks : List (BlockHash × Block)
  balance : List (Address × Nat)

deriving DecidableEq

/-- `BlockChain::new()`: the chain holding only the genesis block. -/
def BlockChain.new (hf : Block → BlockHash) : BlockChain :=
  ⟨[hf genesisBlock], [(hf genesisBlock, genesisBlock)], []⟩

/-- `BlockChain::balance_of`. -/
def balanceOf (c : BlockChain) (a : Address) : Nat := mapGet c.balance a

/-- `BlockChain::contains` (a lookup in the `blocks` map). -/
def containsB (c : BlockChain) (h : BlockHash) : Bool := (bfind? c.blocks h).isSome

/-- The ways the Rust chain code can panic in a debug build. -/
inductive PanicKind where
  /-- `last_hash` on an empty chain, or a failing `blocks` lookup / `remove`. -/
  | missing
  /-- a `u64` balance subtraction underflows. -/
  | underflow
  /-- `pop_until` calls `.unwrap()` on a `pop_block` that returned `None`. -/
  | popNone
  /-- artificial fuel exhaustion of a loop (never a normal return). -/
  | fuel

deriving DecidableEq

deriving instance DecidableEq for Except

/-- The per-transaction check-and-update loop of `append_block`.  Each
transaction is checked (prefix hash, then sender balance with the key
materialized by `balance_mut`) and applied in order; a failure returns `err`
with the *current* balance map, keeping the effects of earlier transactions. -/
def applyTxs (pfx : BlockHash) :
    List BlockTransaction → List (Address × Nat) → Bool × List (Address × Nat)
  | [], m => (true, m)
  | t :: ts, m =>
    if t.prefixHash ≠ pfx then (false, m)
    else
      let m1 := ensureKey m t.info.sender
      if mapGet m1 t.info.sender < t.info.amount then (false, m1)
      else
        let m2 := mapSub m1 t.info.sender t.info.amount
        let m3 := mapAdd m2 t.info.receiver t.info.amount
        applyTxs pfx ts m3

/-- Whether the transaction id uniqueness loop of `append_block` rejects. -/
def dupIds (ts : List BlockTransaction) : Bool := !(ts.map (·.id)).Nodup

/-- `BlockChain::append_block`.  Returns `(false, c')` on a rejected block
(`Err` in Rust; note the balance map of `c'` keeps partial effects), and
`(true, c')` on success. -/
def appendBlock (hf : Block → BlockHash) (c : BlockChain) (b : Block) :
    Except PanicKind (Bool × BlockChain) :=
  match c.chain.getLast? with
  | none => .error .missing
  | some lastH =>
    if b.prefixHash ≠ lastH then .ok (false, c)
    else if ¬ isValidNonce hf b then .ok (false, c)
    else if dupIds b.transactions then .ok (false, c)
    else
      match applyTxs b.prefixHash b.transactions c.balance with
      | (false, m) => .ok (false, { c with balance := m })
      | (true, m) =>
        let m4 := mapAdd m b.miner COINS_PER_MINED_BLOCK
        let h := hf b
        .ok (true, ⟨c.chain ++ [h], binsert c.blocks h b, m4⟩)

/-- The balance reversal loop of `pop_block`: for each transaction in order,
credit the sender and debit the receiver (checked subtraction). -/
def popTxs : List BlockTransaction → List (Address × Nat) →
    Option (List (Address × Nat))
  | [], m => some m
  | t :: ts, m =>
    let m1 := mapAdd m t.info.sender t.info.amount
    match mapSub? m1 t.info.receiver t.info.amount with
    | none => none
    | some m2 => popTxs ts m2

/-- `BlockChain::pop_block`.  `.ok (none, c)` is the genesis early return
(state unchanged); `.ok (some b, c')` removes and returns the last block. -/
def popBlockE (c : BlockChain) : Except PanicKind (Option Block × BlockChain) :=
  match c.chain.getLast? with
  | none => .error .missing
  | some lastH =>
    match bfind? c.blocks lastH with
    | none => .error .missing
    | some lb =>
      if lb.isGenesis then .ok (none, c)
      else
        let chain1 := c.chain.dropLast
        let blocks1 := bremove c.blocks lastH
        match mapSub? c.balance lb.miner COINS_PER_MINED_BLOCK with
        | none => .error .underflow
        | some m1 =>
          match popTxs lb.transactions m1 with
          | none => .error .underflow
          | some m2 => .ok (some lb, ⟨chain1, blocks1, m2⟩)

/-- The loop body of `pop_until`, with fuel (the Rust loop's progress measure
is the chain length). -/
def popUntilGo : Nat → BlockChain → BlockHash → Except PanicKind BlockChain
  | 0, _, _ => .error .fuel
  | f + 1, c, tgt =>
    match c.chain.getLast? with
    | none => .error .missing
    | some h =>
      if h = tgt then .ok c
      else
        match popBlockE c with
        | .error e => .error e
        | .ok (none, _) => .error .popNone
        | .ok (some _, c') => popUntilGo f c' tgt

/-- `BlockChain::pop_until`. -/
def popUntilE (c : BlockChain) (tgt : BlockHash) : Except PanicKind BlockChain :=
  popUntilGo c.chain.length c tgt

/-- `BlockChain::append_blocks`: append in order, stopping at the first `Err`
(the state is already partially advanced at that point). -/
def appendBlocks (hf : Block → BlockHash) (c : BlockChain) :
    List Block → Except PanicKind (Bool × BlockChain)
  | [] => .ok (true, c)
  | b :: bs =>
    match appendBlock hf c b with
    | .error e => .error e
    | .ok (false, c') => .ok (false, c')
    | .ok (true, c') => appendBlocks hf c' bs

/-! ### Reachability by the public chain operations -/

/-- One public mutating chain operation. -/
inductive ChainOp where
  | append (b : Block)
  | appendMany (bs : List Block)
  | pop
  | popTo (h : BlockHash)

deriving DecidableEq

/-- Run one operation; the boolean is `false` iff an append reported `Err`. -/
def runOp (hf : Block → BlockHash) (c : BlockChain) :
    ChainOp → Except PanicKind (Bool × BlockChain)
  | .append b => appendBlock hf c b
  | .appendMany bs => appendBlocks hf c bs
  | .pop => (popBlockE c).map (fun p => (true, p.2))
  | .popTo h => (popUntilE c h).map (fun c' => (true, c'))

/-- Run a list of operations; the boolean is `true` iff no append reported
`Err` anywhere in the trace. -/
def runOps (hf : Block → BlockHash) :
    List ChainOp → BlockChain → Except PanicKind (Bool × BlockChain)
  | [], c => .ok (true, c)
  | op :: ops, c =>
    match runOp hf c op with
    | .error e => .error e
    | .ok (b1, c1) =>
      match runOps hf ops c1 with
      | .error e => .error e
      | .ok (b2, c2) => .ok (b1 && b2, c2)

/-- A chain state reachable from a fresh chain by any sequence of the four
operations, including calls that return `err` (no call may panic). -/
def Reachable (hf : Block → BlockHash) (c : BlockChain) : Prop :=
  ∃ ops ok, runOps hf ops (BlockChain.new hf) = .ok (ok, c)

/-- A chain state reachable from a fresh chain by a sequence of the four
operations in which every append call returned `ok`. -/
def ReachableOk (hf : Block → BlockHash) (c : BlockChain) : Prop :=
  ∃ ops, runOps hf ops (BlockChain.new hf) = .ok (true, c)

/-! ### The spec-side balance ledger -/

/-- Modelled from the spec: the net effect of one transaction on address `a`
(credit the receiver, debit the sender). -/
def txDelta (a : Address) (t : BlockTransaction) : Int :=
  (if t.info.receiver = a then (t.info.amount : Int) else 0)
    - (if t.info.sender = a then (t.info.amount : Int) else 0)

/-- Modelled from the spec: the net effect of one block on address `a`
(credit `COINS_PER_MINED_BLOCK` to the miner, apply every transaction). -/
def blockDelta (a : Address) (b : Block) : Int :=
  (if b.miner = a then (COINS_PER_MINED_BLOCK : Int) else 0)
    + (b.transactions.map (txDelta a)).sum

/-- Modelled from the spec: the contribution of one sequence entry, by lookup
in the `blocks` map; genesis contributes nothing. -/
def hashDelta (blocks : List (BlockHash × Block)) (a : Address) (h : BlockHash) :
    Int :=
  match bfind? blocks h with
  | some b => if b.isGenesis then 0 else blockDelta a b
  | none => 0

/-- Modelled from the spec: `Σ(credits to a) − Σ(debits from a)` over all
blocks currently in the sequence. -/
def specBalance (c : BlockChain) (a : Address) : Int :=
  (c.chain.map (hashDelta c.blocks a)).sum

/-! ### The mempool -/

/-- Rust `MemPool { transaction_ids, transactions, balance, prefix_hash }`. -/
structure MemPool where
  transactionIds : List TransactionId
  transactions : List BlockTransaction
  balance : List (Address × Nat)
  prefixHash : BlockHash

deriving DecidableEq

/-- `MemPool::add_transaction`: reject on a stale prefix hash, a duplicate id,
or an insufficient projected sender balance (`balance_of` does not materialize
the key); otherwise push the transaction, record the id, debit the sender and
credit the receiver. -/
def MemPool.addTransaction (p : MemPool) (t : BlockTransaction) :
    Bool × MemPool :=
  if t.prefixHash ≠ p.prefixHash then (false, p)
  else if t.id ∈ p.transactionIds then (false, p)
  else if mapGet p.balance t.info.sender < t.info.amount then (false, p)
  else
    (true,
      { p with
        transactions := p.transactions ++ [t]
        transactionIds := p.transactionIds ++ [t.id]
        balance :=
          mapAdd (mapSub (ensureKey p.balance t.info.sender) t.info.sender
              t.info.amount)
            t.info.receiver t.info.amount })

/-- `MemPool::new` / `MemPool::reset`: snapshot the chain's balances and tip
(the tip lookup panics on an empty chain). -/
def mempoolResetE (c : BlockChain) : Except PanicKind MemPool :=
  match c.chain.getLast? with
  | none => .error .missing
  | some h => .ok ⟨[], [], c.balance, h⟩

/-! ### The node and consensus -/

/-- Rust `BetterBlockChain { length, last_block, source }`. -/
structure BetterBlockChain where
  length : Nat
  lastBlock : Block
  source : Address

deriving DecidableEq

/-- Rust `Node` (the fields that `achieve_consensus` touches). -/
structure Node where
  alive : Bool
  address : Address
  blockchain : BlockChain
  nextNonce : Nat
  mempool : MemPool
  better : Option BetterBlockChain

deriving DecidableEq

/-- The ancestor-fetch loop of `achieve_consensus`: while the needle is not in
the local chain, query the candidate's source (`oracle`); `ok none` is the
fetch-failure abort, `ok (some (needle, blocks))` found the common block. -/
def fetchLoop (oracle : BlockHash → Option Block) (c : BlockChain) :
    Nat → BlockHash → List Block →
    Except PanicKind (Option (BlockHash × List Block))
  | 0, _, _ => .error .fuel
  | f + 1, needle, acc =>
    if containsB c needle then .ok (some (needle, acc))
    else
      match oracle needle with
      | some blk => fetchLoop oracle c f blk.prefixHash (acc ++ [blk])
      | none => .ok none

/-- `Node::achieve_consensus`, with the network's `query_block` modelled as an
oracle and the fetch loop given fuel (`.error .fuel` stands for a run that did
not return within the fuel; it is never a normal return). -/
def achieveConsensus (hf : Block → BlockHash) (oracle : BlockHash → Option Block)
    (fuel : Nat) (n : Node) : Except PanicKind Node :=
  match n.better with
  | none => .ok n
  | some bb =>
    let n0 := { n with better := none }
    if bb.length ≤ n0.blockchain.chain.length then .ok n0
    else
      let start :=
        if containsB n0.blockchain (hf bb.lastBlock) then
          Except.ok (some (hf bb.lastBlock, ([] : List Block)))
        else fetchLoop oracle n0.blockchain fuel bb.lastBlock.prefixHash
          [bb.lastBlock]
      match start with
      | .error e => .error e
      | .ok none => .ok n0
      | .ok (some (common, newBlocks)) =>
        match popUntilE n0.blockchain common with
        | .error e => .error e
        | .ok clone =>
          match appendBlocks hf clone newBlocks.reverse with
          | .error e => .error e
          | .ok (false, _) => .ok n0
          | .ok (true, c2) =>
            if c2.chain.length ≠ bb.length then .ok n0
            else
              match mempoolResetE c2 with
              | .error e => .error e
              | .ok mp =>
                .ok { n0 with blockchain := c2, nextNonce := 0, mempool := mp }

/-! ### BlockHash parsing (`BlockHash::from_str`) -/

/-- `char::to_digit(16)`: hexadecimal digit value of a character, either case. -/
def hexVal? (c : Char) : Option Nat :=
  if '0' ≤ c ∧ c ≤ '9' then some (c.toNat - '0'.toNat)
  else if 'a' ≤ c ∧ c ≤ 'f' then some (c.toNat - 'a'.toNat + 10)
  else if 'A' ≤ c ∧ c ≤ 'F' then some (c.toNat - 'A'.toNat + 10)
  else none

/-- `u8::from_str_radix(s, 16)` on a two-character chunk: two hex digits, or a
`+` sign followed by one hex digit, or `-0` (an unsigned checked negation of
zero); two hex digits never overflow a `u8`. -/
def parseByte? (c1 c2 : Char) : Option Nat :=
  if c1 = '+' then hexVal? c2
  else if c1 = '-' then
    match hexVal? c2 with
    | some 0 => some 0
    | _ => none
  else
    match hexVal? c1, hexVal? c2 with
    | some v1, some v2 => some (v1 * 16 + v2)
    | _, _ => none

/-- `BlockHash::from_str` on an ASCII string (as a character list): parse the
aligned two-character chunks of the first `2*(len/2)` characters; a trailing
unpaired character is ignored. -/
def parseHexBytes : List Char → Option (List Nat)
  | c1 :: c2 :: rest =>
    match parseByte? c1 c2, parseHexBytes rest with
    | some b, some bs => some (b :: bs)
    | _, _ => none
  | _ => some []

/-- Modelled from the spec: "BlockHash parses as even-length lowercase hex". -/
def isEvenLowercaseHex (s : List Char) : Bool :=
  s.length % 2 = 0 && s.all fun c => ('0' ≤ c && c ≤ '9') || ('a' ≤ c && c ≤ 'f')

/-- The aligned character pairs of a string (trailing unpaired char dropped). -/
def charPairs : List Char → List (Char × Char)
  | c1 :: c2 :: rest => (c1, c2) :: charPairs rest
  | _ => []

/-- Spec side of the amended parsing claim: every aligned chunk is a valid
`u8` base-16 numeral. -/
def goodChunks (s : List Char) : Bool :=
  (charPairs s).all fun p => (parseByte? p.1 p.2).isSome

/-- Spec side of the amended parsing claim: the byte values of the chunks. -/
def chunkVals (s : List Char) : List Nat :=
  (charPairs s).map fun p => (parseByte? p.1 p.2).getD 0

/-! ### A concrete injective hash model

SHA-256 is abstracted throughout; for concrete scenarios we use a computable
injective hash whose digests always carry at least 24 leading zero bits and
are never empty, so every block is well-mined under it. -/

/-- An injective code of a list of naturals via the pairing function. -/
def listCode : List Nat → Nat
  | [] => 0
  | x :: xs => Nat.pair x (listCode xs) + 1

/-- An injective code of a block transaction. -/
def txCode (t : BlockTransaction) : Nat :=
  Nat.pair t.id (Nat.pair (listCode t.prefixHash.bytes)
    (Nat.pair t.info.sender (Nat.pair t.info.receiver t.info.amount)))

/-- An injective code of a block. -/
def blockCode (b : Block) : Nat :=
  Nat.pair (listCode (b.transactions.map txCode))
    (Nat.pair (listCode b.prefixHash.bytes) (Nat.pair b.miner b.nonce))

/-- The concrete hash model: three zero bytes then the block's code. -/
def injHash (b : Block) : BlockHash := ⟨[0, 0, 0, blockCode b]⟩

/-- Helper for naming the chain produced by a non-panicking operation. -/
def chainOf (r : Except PanicKind (Bool × BlockChain)) : BlockChain :=
  match r with
  | .ok p => p.2
  | .error _ => ⟨[], [], []⟩

/-- Helper for naming the result of a non-panicking `pop_block`. -/
def popOf (r : Except PanicKind (Option Block × BlockChain)) :
    Option Block × BlockChain :=
  match r with
  | .ok p => p
  | .error _ => (none, ⟨[], [], []⟩)

/-- Helper for naming the chain produced by a single append. -/
def appendOf (r : Except PanicKind (Bool × BlockChain)) : BlockChain := chainOf r

/-- A block whose prefix does not match the fresh chain's tip. -/
def c1wBlock : Block := ⟨[], ⟨[9]⟩, 5, 0⟩

/-- A block whose transaction is rejected for insufficient funds after the
sender's key has already been materialized by `balance_mut`. -/
def c1xBlock : Block :=
  ⟨[⟨7, injHash genesisBlock, ⟨1, 2, 5⟩⟩], injHash genesisBlock, 3, 0⟩

/-- First mined block of the C6 counterexample scenario: miner 1 earns the
1000-coin reward. -/
def c6xB1 : Block := ⟨[], injHash genesisBlock, 1, 0⟩

/-- The chain after appending `c6xB1` to a fresh chain. -/
def c6xBase : BlockChain :=
  chainOf (appendBlock injHash (BlockChain.new injHash) c6xB1)

/-- A transfer of all of miner 1's coins to address 3. -/
def c6xT1 : BlockTransaction := ⟨1, injHash c6xB1, ⟨1, 3, 1000⟩⟩

/-- A transfer of those coins straight back from 3 to 1. -/
def c6xT2 : BlockTransaction := ⟨2, injHash c6xB1, ⟨3, 1, 1000⟩⟩

/-- A valid block whose second transaction spends the coins received by the
first one; popping it debits address 3 below zero. -/
def c6xB2 : Block := ⟨[c6xT1, c6xT2], injHash c6xB1, 2, 0⟩

/-- The chain after both appends of the C6 counterexample scenario. -/
def c6xChain : BlockChain := chainOf (appendBlock injHash c6xBase c6xB2)

/-- The block of the C4 witness: an empty block mined by address 5. -/
def c4wBlock : Block := ⟨[], injHash genesisBlock, 5, 0⟩

/-- The chain after appending the C4 witness block to a fresh chain. -/
def c4wAfter : BlockChain :=
  chainOf (appendBlock injHash (BlockChain.new injHash) c4wBlock)

/-- The result of popping the C4 witness chain. -/
def c4wPop : Option Block × BlockChain := popOf (popBlockE c4wAfter)

/-- First mined block of the C4 counterexample scenario. -/
def c4xB1 : Block := ⟨[], injHash genesisBlock, 1, 0⟩

/-- The chain after appending `c4xB1` to a fresh chain. -/
def c4xBase : BlockChain :=
  chainOf (appendBlock injHash (BlockChain.new injHash) c4xB1)

/-- A transfer of 600 coins from address 1 to address 2. -/
def c4xT1 : BlockTransaction := ⟨1, injHash c4xB1, ⟨1, 2, 600⟩⟩

/-- The 600 coins sent straight back from 2 to 1. -/
def c4xT2 : BlockTransaction := ⟨2, injHash c4xB1, ⟨2, 1, 600⟩⟩

/-- A block that appends successfully but cannot be popped back. -/
def c4xB2 : Block := ⟨[c4xT1, c4xT2], injHash c4xB1, 3, 0⟩

/-- The chain after the successful append of `c4xB2`. -/
def c4xAfter : BlockChain := chainOf (appendBlock injHash c4xBase c4xB2)

/-- First mined block of the C10 scenario: miner 1 earns 1000 coins. -/
def c10B1 : Block := ⟨[], injHash genesisBlock, 1, 0⟩

/-- A transfer of miner 1's 1000 coins to address 4. -/
def c10T1 : BlockTransaction := ⟨1, injHash c10B1, ⟨1, 4, 1000⟩⟩

/-- The coins sent straight back from 4 to 1 inside the same block. -/
def c10T2 : BlockTransaction := ⟨2, injHash c10B1, ⟨4, 1, 1000⟩⟩

/-- A valid block whose reversal underflows address 4's balance. -/
def c10B2 : Block := ⟨[c10T1, c10T2], injHash c10B1, 2, 0⟩

/-- The reachable chain of the C10 scenario. -/
def c10Chain : BlockChain :=
  chainOf (runOps injHash [.append c10B1, .append c10B2] (BlockChain.new injHash))

/-! ### Chain invariants (spec §3) -/

/-- One linking step of the chain invariant: the block stored under `q` has
`prefix_hash` equal to the preceding sequence entry `p`. -/
def linkOKB (blocks : List (BlockHash × Block)) (p q : BlockHash) : Bool :=
  match bfind? blocks q with
  | some b => b.prefixHash = p
  | none => false

/-- The adjacent-pair linking invariant over the whole sequence. -/
def linkedB (blocks : List (BlockHash × Block)) : List BlockHash → Bool
  | [] => true
  | [_] => true
  | p :: q :: rest => linkOKB blocks p q && linkedB blocks (q :: rest)

/-- The chain invariants of spec §3: non-empty sequence rooted at the genesis
hash, every sequence entry resolvable in `blocks` (with distinct hashes, as
hashes uniquely identify blocks), adjacent entries linked by `prefix_hash`,
every entry keyed by its block's hash, every non-genesis block well-mined, and
every block's transactions bound to its prefix hash with distinct ids. -/
def ChainInv (hf : Block → BlockHash) (c : BlockChain) : Prop :=
  c.chain ≠ [] ∧
  c.chain.head? = some (hf genesisBlock) ∧
  bfind? c.blocks (hf genesisBlock) = some genesisBlock ∧
  c.chain.Nodup ∧
  (∀ h ∈ c.chain, (bfind? c.blocks h).isSome = true) ∧
  linkedB c.blocks c.chain = true ∧
  (∀ p ∈ c.blocks, hf p.2 = p.1) ∧
  (∀ p ∈ c.blocks, p.2.isGenesis = false → isValidNonce hf p.2 = true) ∧
  (∀ p ∈ c.blocks, (∀ t ∈ p.2.transactions, t.prefixHash = p.2.prefixHash) ∧
    dupIds p.2.transactions = false)

instance chainInvDecidable (hf : Block → BlockHash) (c : BlockChain) :
    Decidable (ChainInv hf c) := by
  unfold ChainInv
  infer_instance

/-- First mined block of the C7 counterexample scenario. -/
def c7xB1 : Block := ⟨[], injHash genesisBlock, 1, 0⟩

/-- A transfer of miner 1's 1000 coins to address 8. -/
def c7xT1 : BlockTransaction := ⟨1, injHash c7xB1, ⟨1, 8, 1000⟩⟩

/-- The coins sent straight back from 8 to 1 in the same block. -/
def c7xT2 : BlockTransaction := ⟨2, injHash c7xB1, ⟨8, 1, 1000⟩⟩

/-- A valid block whose reversal underflows address 8's balance. -/
def c7xB2 : Block := ⟨[c7xT1, c7xT2], injHash c7xB1, 2, 0⟩

/-- The chain of the C7 counterexample, built by two successful appends. -/
def c7xChain : BlockChain :=
  chainOf (runOps injHash [.append c7xB1, .append c7xB2] (BlockChain.new injHash))

/-- The full well-formedness of a chain: the chain invariants, distinct keys
in the `blocks` map, no orphan keys, and the balance map agreeing with the
spec's ledger sum. -/
def WF (hf : Block → BlockHash) (c : BlockChain) : Prop :=
  ChainInv hf c ∧ (c.blocks.map Prod.fst).Nodup ∧
  (∀ h, (bfind? c.blocks h).isSome = true → h ∈ c.chain) ∧
  (∀ a, (mapGet c.balance a : Int) = specBalance c a)

/-- First mined block of the C3 counterexample scenario. -/
def c3xB1 : Block := ⟨[], injHash genesisBlock, 1, 0⟩

/-- A transfer of miner 1's 1000 coins to address 5 (valid when applied). -/
def c3xT1 : BlockTransaction := ⟨1, injHash c3xB1, ⟨1, 5, 1000⟩⟩

/-- An overdrawn transfer from 5, which makes the append fail *after* the
first transaction's effects were applied. -/
def c3xT2 : BlockTransaction := ⟨2, injHash c3xB1, ⟨5, 6, 2000⟩⟩

/-- A block rejected midway through its balance updates. -/
def c3xBad : Block := ⟨[c3xT1, c3xT2], injHash c3xB1, 2, 0⟩

/-- The operations of the C3 counterexample (the second append returns err). -/
def c3xOps : List ChainOp := [.append c3xB1, .append c3xBad]

/-- The reachable chain of the C3 counterexample. -/
def c3xChain : BlockChain := chainOf (runOps injHash c3xOps (BlockChain.new injHash))

/-- An empty mempool bound to the fresh chain's tip. -/
def c2wMempool : MemPool := ⟨[], [], [], injHash genesisBlock⟩

/-- A node with no buffered candidate chain. -/
def c2wNode : Node := ⟨true, 0, BlockChain.new injHash, 0, c2wMempool, none⟩

theorem listCode_injective : Function.Injective listCode := by
  intro l1
  induction l1 with
  | nil =>
    intro l2 h
    cases l2 with
    | nil => rfl
    | cons y ys => simp [listCode] at h
  | cons x xs ih =>
    intro l2 h
    cases l2 with
    | nil => simp [listCode] at h
    | cons y ys =>
      simp only [listCode, Nat.add_right_cancel_iff, Nat.pair_eq_pair] at h
      obtain ⟨h1, h2⟩ := h
      rw [h1, ih h2]

theorem txCode_injective : Function.Injective txCode := by
  rintro ⟨id1, ⟨p1⟩, s1, r1, a1⟩ ⟨id2, ⟨p2⟩, s2, r2, a2⟩ h
  simp only [txCode, Nat.pair_eq_pair] at h
  obtain ⟨h1, h2, h3, h4, h5⟩ := h
  have hp := listCode_injective h2
  simp_all

theorem blockCode_injective : Function.Injective blockCode := by
  rintro ⟨t1, ⟨p1⟩, m1, n1⟩ ⟨t2, ⟨p2⟩, m2, n2⟩ h
  simp only [blockCode, Nat.pair_eq_pair] at h
  obtain ⟨h1, h2, h3, h4⟩ := h
  have hp := listCode_injective h2
  have htx := List.map_injective_iff.mpr txCode_injective (listCode_injective h1)
  simp_all

theorem injHash_injective : Function.Injective injHash := by
  intro b1 b2 h
  have hc : blockCode b1 = blockCode b2 := by
    simpa [injHash] using h
  exact blockCode_injective hc

theorem injHash_nonempty (b : Block) : (injHash b).bytes ≠ [] := by
  simp [injHash]

theorem isValidNonce_injHash (b : Block) : isValidNonce injHash b = true := by
  simp only [isValidNonce, injHash, MINING_DIFFICULTY, decide_eq_true_eq]
  show 20 ≤ leadingZeroBits [0, 0, 0, blockCode b]
  rw [leadingZeroBits, if_pos rfl, leadingZeroBits, if_pos rfl, leadingZeroBits,
    if_pos rfl, leadingZeroBits]
  split <;> omega

/-! ### Basic lemmas about the association-list maps -/

theorem mapFind?_mapSet (m : List (Address × Nat)) (k a : Address) (v : Nat) :
    mapFind? (mapSet m k v) a = if k = a then some v else mapFind? m a := by
  induction m with
  | nil => simp [mapSet, mapFind?]
  | cons e rest ih =>
    obtain ⟨ek, ev⟩ := e
    by_cases hek : ek = k
    · subst hek
      by_cases hka : ek = a <;> simp [mapSet, mapFind?, hka, ih]
    · simp only [mapSet, if_neg hek]
      by_cases hea : ek = a
      · subst hea
        have : ¬ k = ek := fun h => hek h.symm
        simp [mapFind?, this]
      · simp [mapFind?, hea, ih]

theorem mapGet_mapSet (m : List (Address × Nat)) (k a : Address) (v : Nat) :
    mapGet (mapSet m k v) a = if k = a then v else mapGet m a := by
  simp only [mapGet, mapFind?_mapSet]
  split <;> rfl

theorem mapGet_ensureKey (m : List (Address × Nat)) (k a : Address) :
    mapGet (ensureKey m k) a = mapGet m a := by
  simp only [ensureKey, mapGet_mapSet]
  split <;> simp_all

theorem mapGet_mapAdd (m : List (Address × Nat)) (k a : Address) (v : Nat) :
    mapGet (mapAdd m k v) a = if k = a then mapGet m a + v else mapGet m a := by
  simp only [mapAdd, mapGet_mapSet]
  split <;> simp_all

theorem mapGet_mapSub (m : List (Address × Nat)) (k a : Address) (v : Nat) :
    mapGet (mapSub m k v) a = if k = a then mapGet m a - v else mapGet m a := by
  simp only [mapSub, mapGet_mapSet]
  split <;> simp_all

theorem mapFind?_ensureKey (m : List (Address × Nat)) (k a : Address) :
    mapFind? (ensureKey m k) a =
      if k = a then some (mapGet m a) else mapFind? m a := by
  simp only [ensureKey, mapFind?_mapSet]
  split <;> simp_all

theorem bfind?_binsert (l : List (BlockHash × Block)) (k h : BlockHash)
    (b : Block) :
    bfind? (binsert l k b) h = if k = h then some b else bfind? l h := by
  induction l with
  | nil => simp [binsert, bfind?]
  | cons e rest ih =>
    obtain ⟨ek, ev⟩ := e
    by_cases hek : ek = k
    · subst hek
      by_cases hkh : ek = h <;> simp [binsert, bfind?, hkh, ih]
    · simp only [binsert, if_neg hek]
      by_cases heh : ek = h
      · subst heh
        have : ¬ k = ek := fun hx => hek hx.symm
        simp [bfind?, this]
      · simp [bfind?, heh, ih]

theorem bfind?_bremove_ne (l : List (BlockHash × Block)) (k h : BlockHash)
    (hne : h ≠ k) : bfind? (bremove l k) h = bfind? l h := by
  induction l with
  | nil => simp [bremove]
  | cons e rest ih =>
    obtain ⟨ek, ev⟩ := e
    by_cases hek : ek = k
    · subst hek
      have h1 : ¬ ek = h := fun hx => hne hx.symm
      simp [bremove, bfind?, h1]
    · by_cases heh : ek = h
      · subst heh
        simp [bremove, bfind?, hek]
      · simp [bremove, bfind?, hek, heh, ih]

/-! ### Pointwise balance effects -/

/-- The net effect on `mapGet` of one applied transaction (debit the sender,
credit the receiver), as integers. -/
theorem mapGet_applyTx (m : List (Address × Nat)) (s r : Address) (v : Nat)
    (hv : v ≤ mapGet m s) (a : Address) :
    (mapGet (mapAdd (mapSub (ensureKey m s) s v) r v) a : Int) =
      mapGet m a + ((if r = a then (v : Int) else 0)
        - (if s = a then (v : Int) else 0)) := by
  simp only [mapGet_mapAdd, mapGet_mapSub, mapGet_ensureKey]
  by_cases hr : r = a <;> by_cases hs : s = a <;> simp only [hr, hs, if_pos,
    if_neg, if_true, if_false] <;> simp_all <;> omega

/-- A successful `append_block` transaction loop shifts every balance by the
sum of the transaction deltas. -/
theorem applyTxs_ok (pfx : BlockHash) (ts : List BlockTransaction)
    (m m' : List (Address × Nat)) (h : applyTxs pfx ts m = (true, m'))
    (a : Address) :
    (mapGet m' a : Int) = mapGet m a + (ts.map (txDelta a)).sum := by
  induction ts generalizing m with
  | nil =>
    simp only [applyTxs, Prod.mk.injEq] at h
    simp [h.2]
  | cons t ts ih =>
    simp only [applyTxs] at h
    by_cases hp : t.prefixHash ≠ pfx
    · simp [hp] at h
    · simp only [hp, if_neg, if_false, ite_not] at h
      by_cases hlt : mapGet (ensureKey m t.info.sender) t.info.sender <
          t.info.amount
      · simp [if_pos hlt] at h
      · rw [if_neg hlt] at h
        have hv : t.info.amount ≤ mapGet m t.info.sender := by
          rw [mapGet_ensureKey] at hlt
          omega
        have heff := mapGet_applyTx m t.info.sender t.info.receiver
          t.info.amount hv a
        have := ih _ h
        simp only [List.map_cons, List.sum_cons]
        rw [this, heff]
        simp only [txDelta]
        ring

/-- The balance reversal loop of `pop_block`, when it does not underflow,
shifts every balance by minus the sum of the transaction deltas. -/
theorem popTxs_ok (ts : List BlockTransaction) (m m' : List (Address × Nat))
    (h : popTxs ts m = some m') (a : Address) :
    (mapGet m' a : Int) = mapGet m a - (ts.map (txDelta a)).sum := by
  induction ts generalizing m with
  | nil =>
    simp only [popTxs, Option.some.injEq] at h
    simp [h]
  | cons t ts ih =>
    simp only [popTxs] at h
    cases hsub : mapSub? (mapAdd m t.info.sender t.info.amount) t.info.receiver
        t.info.amount with
    | none => rw [hsub] at h; exact absurd h (by simp)
    | some m2 =>
      rw [hsub] at h
      simp only [mapSub?] at hsub
      by_cases hlt : mapGet (mapAdd m t.info.sender t.info.amount)
          t.info.receiver < t.info.amount
      · simp [hlt] at hsub
      · rw [if_neg hlt] at hsub
        have hm2 := ih _ h
        injection hsub with hsub
        subst hsub
        rw [hm2]
        simp only [mapGet_mapSub, mapGet_mapAdd] at *
        simp only [List.map_cons, List.sum_cons, txDelta]
        by_cases hr : t.info.receiver = a <;>
          by_cases hs : t.info.sender = a <;> simp_all <;> omega

/-- Inversion of a successful `append_block`. -/
theorem appendBlock_ok_inv (hf : Block → BlockHash) (c : BlockChain) (b : Block)
    (c' : BlockChain) (h : appendBlock hf c b = .ok (true, c')) :
    c.chain.getLast? = some b.prefixHash ∧ isValidNonce hf b = true ∧
    dupIds b.transactions = false ∧
    ∃ m, applyTxs b.prefixHash b.transactions c.balance = (true, m) ∧
      c' = ⟨c.chain ++ [hf b], binsert c.blocks (hf b) b,
        mapAdd m b.miner COINS_PER_MINED_BLOCK⟩ := by
  unfold appendBlock at h
  split at h
  · exact absurd h (by simp)
  rename_i lastH hl
  split at h
  · exact absurd h (by simp)
  rename_i hpr
  split at h
  · exact absurd h (by simp)
  rename_i hnv
  split at h
  · exact absurd h (by simp)
  rename_i hdup
  split at h
  · exact absurd h (by simp)
  rename_i m happ
  simp only [Except.ok.injEq, Prod.mk.injEq, true_and] at h
  have hpr2 : b.prefixHash = lastH := by
    by_contra hx
    exact hpr hx
  subst hpr2
  refine ⟨hl, by simpa using hnv, by simpa using hdup, m, happ, h.symm⟩

/-- A successful `append_block` shifts every balance by the block delta. -/
theorem appendBlock_ok_balance (hf : Block → BlockHash) (c : BlockChain)
    (b : Block) (c' : BlockChain) (h : appendBlock hf c b = .ok (true, c'))
    (a : Address) :
    (mapGet c'.balance a : Int) = mapGet c.balance a + blockDelta a b := by
  obtain ⟨-, -, -, m, hm, hc⟩ := appendBlock_ok_inv hf c b c' h
  subst hc
  simp only [mapGet_mapAdd]
  have := applyTxs_ok _ _ _ _ hm a
  simp only [blockDelta]
  by_cases hmin : b.miner = a <;> simp [hmin, this] <;> ring

/-- Inversion of a `pop_block` that removed a block. -/
theorem popBlockE_some_inv (c : BlockChain) (b : Block) (c' : BlockChain)
    (h : popBlockE c = .ok (some b, c')) :
    ∃ lastH, c.chain.getLast? = some lastH ∧ bfind? c.blocks lastH = some b ∧
      b.isGenesis = false ∧ c'.chain = c.chain.dropLast ∧
      c'.blocks = bremove c.blocks lastH ∧
      (∀ a, (mapGet c'.balance a : Int) =
        mapGet c.balance a - blockDelta a b) := by
  unfold popBlockE at h
  split at h
  · exact absurd h (by simp)
  rename_i lastH hl
  split at h
  · exact absurd h (by simp)
  rename_i lb hfind
  split at h
  · exact absurd h (by simp)
  rename_i hg
  split at h
  · exact absurd h (by simp)
  rename_i m1 hsub
  split at h
  · exact absurd h (by simp)
  rename_i m2 htx
  simp only [Except.ok.injEq, Prod.mk.injEq, Option.some.injEq] at h
  obtain ⟨hb, hc⟩ := h
  subst hb
  subst hc
  refine ⟨lastH, hl, hfind, by simpa using hg, rfl, rfl, fun a => ?_⟩
  unfold mapSub? at hsub
  split at hsub
  · exact absurd hsub (by simp)
  rename_i hlt
  injection hsub with hsub
  subst hsub
  have hpt := popTxs_ok _ _ _ htx a
  simp only
  rw [hpt]
  simp only [mapGet_mapSub, blockDelta]
  by_cases hmin : lb.miner = a
  · subst hmin
    simp only [eq_self_iff_true, ite_true]
    omega
  · simp only [if_neg hmin]
    omega

/-- Inversion of a `pop_block` that returned `None`. -/
theorem popBlockE_none_inv (c c' : BlockChain)
    (h : popBlockE c = .ok (none, c')) :
    c' = c ∧ ∃ lh lb, c.chain.getLast? = some lh ∧
      bfind? c.blocks lh = some lb ∧ lb.isGenesis = true := by
  unfold popBlockE at h
  split at h
  · exact absurd h (by simp)
  rename_i lh hl
  split at h
  · exact absurd h (by simp)
  rename_i lb hfind
  split at h
  · rename_i hg
    simp only [Except.ok.injEq, Prod.mk.injEq, true_and] at h
    exact ⟨h.symm, lh, lb, hl, hfind, by simpa using hg⟩
  split at h
  · exact absurd h (by simp)
  split at h
  · exact absurd h (by simp)
  · exact absurd h (by simp)

/-- C8: `attempt_mining_block` returns the block built from exactly the given
fields whose nonce is the first valid one in the iterator's order, and `none`
if the iterator is exhausted without finding one; it is a pure function of its
arguments. -/
theorem attemptMiningBlock_first_valid (hf : Block → BlockHash)
    (ph : BlockHash) (miner : Address) (txs : List BlockTransaction)
    (ns : List Nat) :
    attemptMiningBlock hf ph miner txs ns =
      (ns.find? (fun n => isValidNonce hf ⟨txs, ph, miner, n⟩)).map
        (fun n => (⟨txs, ph, miner, n⟩ : Block)) := by
  induction ns with
  | nil => rfl
  | cons n ns ih =>
    simp only [attemptMiningBlock]
    by_cases h : isValidNonce hf ⟨txs, ph, miner, n⟩ = true
    · rw [List.find?_cons_of_pos _ (by simpa using h)]
      simp [h]
    · rw [List.find?_cons_of_neg _ (by simpa using h)]
      simp only [h, if_false, Bool.false_eq_true, ite_false]
      exact ih

/-- C9 (amended): `BlockHash::from_str` on an ASCII string succeeds iff every
aligned two-character chunk of the first `2*(len/2)` characters parses as a
`u8` base-16 numeral (two hex digits of either case, `+` followed by a hex
digit, or `-0`), the trailing unpaired character being ignored; the resulting
bytes are the chunk values. -/
theorem parseHexBytes_chunks : (s : List Char) →
    parseHexBytes s = if goodChunks s then some (chunkVals s) else none
  | [] => by simp [parseHexBytes, goodChunks, charPairs, chunkVals]
  | [c] => by simp [parseHexBytes, goodChunks, charPairs, chunkVals]
  | c1 :: c2 :: rest => by
    have ih := parseHexBytes_chunks rest
    simp only [parseHexBytes]
    rw [ih]
    have hgc : goodChunks (c1 :: c2 :: rest) =
        ((parseByte? c1 c2).isSome && goodChunks rest) := by
      simp [goodChunks, charPairs]
    have hcv : chunkVals (c1 :: c2 :: rest) =
        (parseByte? c1 c2).getD 0 :: chunkVals rest := by
      simp [chunkVals, charPairs]
    rw [hgc, hcv]
    cases hpb : parseByte? c1 c2 with
    | none => simp
    | some b =>
      by_cases hg : goodChunks rest = true
      · simp [hg]
      · simp only [Bool.not_eq_true] at hg
        simp [hg]

/-- Counterexample to C9 as stated: parsing succeeds on `"AB"`, which is not
an even-length *lowercase* hex string (and it also succeeds on the odd-length
string `"abc"`). -/
theorem parseHexBytes_counterexample :
    (parseHexBytes ['A', 'B']).isSome = true ∧
    isEvenLowercaseHex ['A', 'B'] = false ∧
    parseHexBytes ['A', 'B'] = some [171] ∧
    (parseHexBytes ['a', 'b', 'c']).isSome = true ∧
    isEvenLowercaseHex ['a', 'b', 'c'] = false := by
  refine ⟨by decide, by decide, by decide, by decide, by decide⟩

/-- C5: mempool `add_transaction` fails exactly on a stale tip, a duplicate
id, or an insufficient projected sender balance; on `err` the mempool is
entirely unchanged; on `ok` the transaction is appended at the end, its id is
recorded, the tip is unchanged, and the provisional balances shift by the
transaction delta (debit sender, credit receiver). -/
theorem mempool_add_spec (p : MemPool) (t : BlockTransaction) :
    ((p.addTransaction t).1 = false ↔
      (t.prefixHash ≠ p.prefixHash ∨ t.id ∈ p.transactionIds ∨
        mapGet p.balance t.info.sender < t.info.amount)) ∧
    ((p.addTransaction t).1 = false → (p.addTransaction t).2 = p) ∧
    ((p.addTransaction t).1 = true →
      ((p.addTransaction t).2.transactions = p.transactions ++ [t] ∧
        (p.addTransaction t).2.transactionIds = p.transactionIds ++ [t.id] ∧
        (p.addTransaction t).2.prefixHash = p.prefixHash ∧
        ∀ a, (mapGet (p.addTransaction t).2.balance a : Int) =
          mapGet p.balance a + txDelta a t)) := by
  by_cases h1 : t.prefixHash = p.prefixHash
  · by_cases h2 : t.id ∈ p.transactionIds
    · simp [MemPool.addTransaction, h1, h2]
    · by_cases h3 : mapGet p.balance t.info.sender < t.info.amount
      · simp [MemPool.addTransaction, h1, h2, h3]
      · have hred : p.addTransaction t = (true,
            { p with
              transactions := p.transactions ++ [t]
              transactionIds := p.transactionIds ++ [t.id]
              balance := mapAdd (mapSub (ensureKey p.balance t.info.sender)
                  t.info.sender t.info.amount) t.info.receiver
                t.info.amount }) := by
          simp [MemPool.addTransaction, h1, h2, h3]
        rw [hred]
        refine ⟨⟨fun hx => absurd hx (by simp), fun hx => ?_⟩, by simp, ?_⟩
        · rcases hx with hx | hx | hx
          · exact absurd h1 hx
          · exact absurd hx h2
          · omega
        · intro _
          refine ⟨rfl, rfl, rfl, fun a => ?_⟩
          simp only
          rw [mapGet_applyTx p.balance t.info.sender t.info.receiver
            t.info.amount (by omega) a]
          simp [txDelta]
  · simp [MemPool.addTransaction, h1]

/-- C1 (amended): when `append_block` returns `err`, the `sequence` and the
`blocks` map are unchanged; the balance map, however, may have materialized
zero-valued keys and may keep the effects of the transactions that preceded
the failing one. -/
theorem append_err_chain_blocks_unchanged (hf : Block → BlockHash)
    (c : BlockChain) (b : Block) (c' : BlockChain)
    (h : appendBlock hf c b = .ok (false, c')) :
    c'.chain = c.chain ∧ c'.blocks = c.blocks := by
  unfold appendBlock at h
  split at h
  · exact absurd h (by simp)
  rename_i lastH hl
  split at h
  · simp only [Except.ok.injEq, Prod.mk.injEq, true_and] at h
    rw [← h]
    exact ⟨rfl, rfl⟩
  split at h
  · simp only [Except.ok.injEq, Prod.mk.injEq, true_and] at h
    rw [← h]
    exact ⟨rfl, rfl⟩
  split at h
  · simp only [Except.ok.injEq, Prod.mk.injEq, true_and] at h
    rw [← h]
    exact ⟨rfl, rfl⟩
  split at h
  · rename_i m happ
    simp only [Except.ok.injEq, Prod.mk.injEq, true_and] at h
    rw [← h]
    exact ⟨rfl, rfl⟩
  · exact absurd h (by simp)

/-- Witness for the amended C1 at a concrete rejected append. -/
theorem append_err_chain_blocks_unchanged_witness :
    appendBlock injHash (BlockChain.new injHash) c1wBlock =
      .ok (false, BlockChain.new injHash) ∧
    ((BlockChain.new injHash).chain = (BlockChain.new injHash).chain ∧
      (BlockChain.new injHash).blocks = (BlockChain.new injHash).blocks) :=
  ⟨by decide,
    append_err_chain_blocks_unchanged injHash (BlockChain.new injHash) c1wBlock
      (BlockChain.new injHash) (by decide)⟩

/-- Counterexample to C1 as stated: an `append_block` that returns `err` can
leave the chain state changed — here the rejected transaction's sender key is
materialized in the balance map. -/
theorem append_err_state_changed_counterexample :
    ∃ c', appendBlock injHash (BlockChain.new injHash) c1xBlock =
        .ok (false, c') ∧ c' ≠ BlockChain.new injHash :=
  ⟨{ BlockChain.new injHash with balance := [(1, 0)] }, by decide, by decide⟩

/-- C6 (amended): `pop_block` returns `None` and changes nothing when the
last block is genesis; otherwise, whenever it does not panic on a `u64`
balance underflow, it removes the last block from the sequence and the blocks
map, returns it, and reverses its balance effects exactly. -/
theorem pop_genesis_or_reverses (c : BlockChain) (lh : BlockHash) (lb : Block)
    (hl : c.chain.getLast? = some lh) (hfind : bfind? c.blocks lh = some lb) :
    (lb.isGenesis = true → popBlockE c = .ok (none, c)) ∧
    (lb.isGenesis = false → ∀ r c', popBlockE c = .ok (r, c') →
      r = some lb ∧ c'.chain = c.chain.dropLast ∧
      c'.blocks = bremove c.blocks lh ∧
      ∀ a, (mapGet c'.balance a : Int) =
        mapGet c.balance a - blockDelta a lb) := by
  constructor
  · intro hg
    unfold popBlockE
    split
    · rename_i hnone
      rw [hl] at hnone
      exact absurd hnone (by simp)
    · rename_i lh2 hl2
      rw [hl] at hl2
      injection hl2 with hl2
      subst hl2
      split
      · rename_i hf2
        rw [hfind] at hf2
        exact absurd hf2 (by simp)
      · rename_i lb2 hf2
        rw [hfind] at hf2
        injection hf2 with hf2
        subst hf2
        rw [if_pos hg]
  · intro hg r c' hpop
    cases r with
    | none =>
      obtain ⟨-, lh2, lb2, hl2, hf2, hg2⟩ := popBlockE_none_inv c c' hpop
      rw [hl] at hl2
      injection hl2 with hl2
      subst hl2
      rw [hfind] at hf2
      injection hf2 with hf2
      subst hf2
      rw [hg] at hg2
      exact absurd hg2 (by simp)
    | some bp =>
      obtain ⟨lh2, hl2, hf2, -, hch, hbl, hbal⟩ := popBlockE_some_inv c bp c' hpop
      rw [hl] at hl2
      injection hl2 with hl2
      subst hl2
      rw [hfind] at hf2
      injection hf2 with hf2
      subst hf2
      exact ⟨rfl, hch, hbl, hbal⟩

/-- Witness for the amended C6 at the fresh chain (genesis branch). -/
theorem pop_genesis_or_reverses_witness :
    ((BlockChain.new injHash).chain.getLast? = some (injHash genesisBlock) ∧
      bfind? (BlockChain.new injHash).blocks (injHash genesisBlock) =
        some genesisBlock ∧ genesisBlock.isGenesis = true) ∧
    popBlockE (BlockChain.new injHash) = .ok (none, BlockChain.new injHash) :=
  ⟨⟨by decide, by decide, by decide⟩,
    (pop_genesis_or_reverses (BlockChain.new injHash) (injHash genesisBlock)
      genesisBlock (by decide) (by decide)).1 (by decide)⟩

/-- Counterexample to C6 as stated: on a chain reachable by two successful
appends, whose last block is not genesis, `pop_block` neither returns `None`
nor removes-and-reverses — it panics on a `u64` underflow. -/
theorem pop_underflow_counterexample :
    runOps injHash [.append c6xB1, .append c6xB2] (BlockChain.new injHash) =
      .ok (true, c6xChain) ∧
    (∃ lh lb, c6xChain.chain.getLast? = some lh ∧
      bfind? c6xChain.blocks lh = some lb ∧ lb.isGenesis = false) ∧
    popBlockE c6xChain = .error .underflow :=
  ⟨by decide, ⟨injHash c6xB2, c6xB2, by decide, by decide, by decide⟩,
    by decide⟩

/-- C4 (amended): if `append(b)` succeeds on a chain whose tip hash is
nonempty and the following `pop()` does not panic on a `u64` underflow, then
the pop returns `Some(b)` and every balance is restored to its value from
before the append; keys materialized in between hold zero. -/
theorem append_then_pop_restores (hf : Block → BlockHash) (c : BlockChain)
    (b : Block) (c1 : BlockChain) (hb : b.prefixHash.bytes ≠ [])
    (h1 : appendBlock hf c b = .ok (true, c1)) (r : Option Block)
    (c2 : BlockChain) (h2 : popBlockE c1 = .ok (r, c2)) :
    r = some b ∧ (∀ a, mapGet c2.balance a = mapGet c.balance a) ∧
    (∀ a, mapFind? c.balance a = none →
      mapFind? c2.balance a = none ∨ mapFind? c2.balance a = some 0) := by
  obtain ⟨hl, hv, hd, m, hm, hc1⟩ := appendBlock_ok_inv hf c b c1 h1
  have hlast : c1.chain.getLast? = some (hf b) := by
    rw [hc1]
    simp
  have hfindb : bfind? c1.blocks (hf b) = some b := by
    rw [hc1]
    simp [bfind?_binsert]
  have hng : b.isGenesis = false := by
    simp [Block.isGenesis, hb]
  cases r with
  | none =>
    obtain ⟨-, lh2, lb2, hl2, hf2, hg2⟩ := popBlockE_none_inv c1 c2 h2
    rw [hlast] at hl2
    injection hl2 with hl2
    subst hl2
    rw [hfindb] at hf2
    injection hf2 with hf2
    subst hf2
    rw [hng] at hg2
    exact absurd hg2 (by simp)
  | some bp =>
    obtain ⟨lh2, hl2, hf2, -, -, -, hbal⟩ := popBlockE_some_inv c1 bp c2 h2
    rw [hlast] at hl2
    injection hl2 with hl2
    subst hl2
    rw [hfindb] at hf2
    injection hf2 with hf2
    subst hf2
    have hrestore : ∀ a, mapGet c2.balance a = mapGet c.balance a := by
      intro a
      have ha := appendBlock_ok_balance hf c b c1 h1 a
      have hp := hbal a
      have : (mapGet c2.balance a : Int) = mapGet c.balance a := by omega
      exact_mod_cast this
    refine ⟨rfl, hrestore, fun a hnone => ?_⟩
    have h0 : mapGet c.balance a = 0 := by
      simp [mapGet, hnone]
    have h20 : mapGet c2.balance a = 0 := by
      rw [hrestore a, h0]
    cases hfind2 : mapFind? c2.balance a with
    | none => exact Or.inl rfl
    | some v =>
      right
      have hv0 : v = 0 := by
        simpa [mapGet, hfind2] using h20
      rw [hv0]

/-- Witness for the amended C4 at a concrete append-then-pop. -/
theorem append_then_pop_restores_witness :
    (c4wBlock.prefixHash.bytes ≠ [] ∧
      appendBlock injHash (BlockChain.new injHash) c4wBlock =
        .ok (true, c4wAfter) ∧
      popBlockE c4wAfter = .ok (c4wPop.1, c4wPop.2)) ∧
    (c4wPop.1 = some c4wBlock ∧
      (∀ a, mapGet c4wPop.2.balance a =
        mapGet (BlockChain.new injHash).balance a) ∧
      (∀ a, mapFind? (BlockChain.new injHash).balance a = none →
        mapFind? c4wPop.2.balance a = none ∨
          mapFind? c4wPop.2.balance a = some 0)) :=
  ⟨⟨by decide, by decide, by decide⟩,
    append_then_pop_restores injHash (BlockChain.new injHash) c4wBlock c4wAfter
      (by decide) (by decide) c4wPop.1 c4wPop.2 (by decide)⟩

/-- Counterexample to C4 as stated: `append(b)` returns ok, but the following
`pop()` does not return `Some(b)` with the old balances — it panics on a
`u64` underflow while reversing the block's transactions. -/
theorem append_then_pop_counterexample :
    appendBlock injHash c4xBase c4xB2 = .ok (true, c4xAfter) ∧
    popBlockE c4xAfter = .error .underflow :=
  ⟨by decide, by decide⟩

/-- C10: evaluation of the code at the failing input.  A chain reachable by
two successful appends on which `pop_block`'s receiver debit underflows `u64`
(address 4 holds 0 but is debited 1000), so `pop_block` panics in a debug
build. -/
theorem pop_underflow_on_reachable_chain :
    runOps injHash [.append c10B1, .append c10B2] (BlockChain.new injHash) =
      .ok (true, c10Chain) ∧
    mapGet c10Chain.balance 4 < c10T1.info.amount ∧
    popBlockE c10Chain = .error .underflow :=
  ⟨by decide, by decide, by decide⟩

/-- Inversion of a successful mempool reset. -/
theorem mempoolResetE_ok (c : BlockChain) (mp : MemPool)
    (h : mempoolResetE c = .ok mp) :
    ∃ tip, c.chain.getLast? = some tip ∧ mp = ⟨[], [], c.balance, tip⟩ := by
  unfold mempoolResetE at h
  split at h
  · exact absurd h (by simp)
  rename_i tip htip
  injection h with h
  exact ⟨tip, htip, h.symm⟩

/-- C2: whenever `achieve_consensus` returns, the chain length is unchanged
or strictly greater; in every abort case the live chain is exactly the chain
from before the call, and on success the new length equals the candidate's
announced length, `next_nonce` is reset to 0 and the mempool is reset against
the new tip. -/
theorem achieveConsensus_spec (hf : Block → BlockHash)
    (oracle : BlockHash → Option Block) (fuel : Nat) (n n' : Node)
    (h : achieveConsensus hf oracle fuel n = .ok n') :
    n.blockchain.chain.length ≤ n'.blockchain.chain.length ∧
    (n'.blockchain = n.blockchain ∨
      (∃ bb, n.better = some bb ∧
        n'.blockchain.chain.length = bb.length ∧
        n.blockchain.chain.length < bb.length ∧
        n'.nextNonce = 0 ∧
        ∃ tip, n'.blockchain.chain.getLast? = some tip ∧
          n'.mempool = ⟨[], [], n'.blockchain.balance, tip⟩)) := by
  cases hbb : n.better with
  | none =>
    simp only [achieveConsensus, hbb] at h
    injection h with h
    subst h
    exact ⟨le_refl _, Or.inl rfl⟩
  | some bb =>
    simp only [achieveConsensus, hbb] at h
    by_cases hlen : bb.length ≤ n.blockchain.chain.length
    · rw [if_pos hlen] at h
      injection h with h
      subst h
      exact ⟨le_refl _, Or.inl rfl⟩
    · rw [if_neg hlen] at h
      split at h
      · exact absurd h (by simp)
      · injection h with h
        subst h
        exact ⟨le_refl _, Or.inl rfl⟩
      rename_i common newBlocks hstart
      split at h
      · exact absurd h (by simp)
      rename_i clone hpop
      split at h
      · exact absurd h (by simp)
      · injection h with h
        subst h
        exact ⟨le_refl _, Or.inl rfl⟩
      rename_i c2 happ
      split at h
      · injection h with h
        subst h
        exact ⟨le_refl _, Or.inl rfl⟩
      rename_i hl2
      split at h
      · exact absurd h (by simp)
      rename_i mp hmp
      injection h with h
      subst h
      push_neg at hl2
      obtain ⟨tip, htip, hmp2⟩ := mempoolResetE_ok c2 mp hmp
      refine ⟨by simp only; omega, Or.inr ⟨bb, rfl, ?_, ?_, rfl, tip, ?_, ?_⟩⟩
      · simpa using hl2
      · omega
      · simpa using htip
      · simpa using hmp2

/-! ### Association-list and linking lemmas -/

theorem bfind?_mem {l : List (BlockHash × Block)} {k : BlockHash} {b : Block}
    (h : bfind? l k = some b) : (k, b) ∈ l := by
  induction l with
  | nil => simp [bfind?] at h
  | cons e rest ih =>
    obtain ⟨ek, ev⟩ := e
    by_cases hek : ek = k
    · subst hek
      have hev : ev = b := by simpa [bfind?] using h
      subst hev
      exact List.mem_cons_self _ _
    · have h2 : bfind? rest k = some b := by simpa [bfind?, hek] using h
      exact List.mem_cons_of_mem _ (ih h2)

theorem bfind?_isSome_iff (l : List (BlockHash × Block)) (k : BlockHash) :
    (bfind? l k).isSome = true ↔ k ∈ l.map Prod.fst := by
  induction l with
  | nil => simp [bfind?]
  | cons e rest ih =>
    obtain ⟨ek, ev⟩ := e
    by_cases hek : ek = k
    · subst hek
      simp [bfind?]
    · have hke : ¬ k = ek := fun hx => hek hx.symm
      simp [bfind?, hek, hke, ih]

theorem bremove_sublist (l : List (BlockHash × Block)) (k : BlockHash) :
    List.Sublist (bremove l k) l := by
  induction l with
  | nil => simp [bremove]
  | cons e rest ih =>
    obtain ⟨ek, ev⟩ := e
    by_cases hek : ek = k
    · simp only [bremove, if_pos hek]
      exact (List.Sublist.refl rest).cons _
    · simp only [bremove, if_neg hek]
      exact ih.cons₂ _

theorem bfind?_bremove_self {l : List (BlockHash × Block)} {k : BlockHash}
    (hnd : (l.map Prod.fst).Nodup) : bfind? (bremove l k) k = none := by
  induction l with
  | nil => simp [bremove, bfind?]
  | cons e rest ih =>
    obtain ⟨ek, ev⟩ := e
    simp only [List.map_cons, List.nodup_cons] at hnd
    by_cases hek : ek = k
    · subst hek
      have hbr : bremove ((ek, ev) :: rest) ek = rest := by simp [bremove]
      rw [hbr]
      cases hfk : bfind? rest ek with
      | none => rfl
      | some b =>
        exact absurd (List.mem_map_of_mem Prod.fst (bfind?_mem hfk)) hnd.1
    · have hbr : bremove ((ek, ev) :: rest) k = (ek, ev) :: bremove rest k := by
        simp [bremove, hek]
      rw [hbr]
      simp only [bfind?, if_neg hek]
      exact ih hnd.2

theorem binsert_fresh {l : List (BlockHash × Block)} {k : BlockHash}
    (b : Block) (hk : ¬ k ∈ l.map Prod.fst) :
    binsert l k b = l ++ [(k, b)] := by
  induction l with
  | nil => simp [binsert]
  | cons e rest ih =>
    obtain ⟨ek, ev⟩ := e
    simp only [List.map_cons, List.mem_cons, not_or] at hk
    have hek : ¬ ek = k := fun hx => hk.1 hx.symm
    simp only [binsert, if_neg hek, List.cons_append, List.cons.injEq, true_and]
    exact ih hk.2

theorem linkedB_congr (blocks blocks' : List (BlockHash × Block)) :
    ∀ l : List BlockHash, (∀ q ∈ l, bfind? blocks' q = bfind? blocks q) →
      linkedB blocks' l = linkedB blocks l
  | [] => fun _ => rfl
  | [_] => fun _ => rfl
  | p :: q :: rest => fun hsame => by
    have hq : bfind? blocks' q = bfind? blocks q := hsame q (by simp)
    have h1 : linkOKB blocks' p q = linkOKB blocks p q := by
      simp only [linkOKB, hq]
    have h2 := linkedB_congr blocks blocks' (q :: rest)
      (fun x hx => hsame x (List.mem_cons_of_mem _ hx))
    simp only [linkedB, h1, h2]

theorem applyTxs_ok_prefixes (pfx : BlockHash) (ts : List BlockTransaction)
    (m m' : List (Address × Nat)) (h : applyTxs pfx ts m = (true, m')) :
    ∀ t ∈ ts, t.prefixHash = pfx := by
  induction ts generalizing m with
  | nil => simp
  | cons t ts ih =>
    simp only [applyTxs] at h
    by_cases hp : t.prefixHash ≠ pfx
    · simp [hp] at h
    · push_neg at hp
      rw [if_neg (by simpa using hp)] at h
      by_cases hlt : mapGet (ensureKey m t.info.sender) t.info.sender <
          t.info.amount
      · simp [if_pos hlt] at h
      · rw [if_neg hlt] at h
        intro t' ht'
        rcases List.mem_cons.mp ht' with h1 | h1
        · rw [h1]
          exact hp
        · exact ih _ h t' h1

theorem getLast?_mem {α : Type} : ∀ (l : List α) (a : α),
    l.getLast? = some a → a ∈ l
  | [], a => by simp
  | [x], a => by
    intro h
    have : x = a := by simpa using h
    simp [this]
  | x :: y :: r, a => by
    intro h
    have h2 : (y :: r).getLast? = some a := by simpa using h
    exact List.mem_cons_of_mem _ (getLast?_mem (y :: r) a h2)

theorem linkedB_dropLast (blocks : List (BlockHash × Block)) :
    ∀ l : List BlockHash, linkedB blocks l = true →
      linkedB blocks l.dropLast = true
  | [] => fun _ => rfl
  | [_] => fun _ => rfl
  | p :: q :: rest => fun h => by
    simp only [linkedB, Bool.and_eq_true] at h
    cases rest with
    | nil => rfl
    | cons r rs =>
      have ih := linkedB_dropLast blocks (q :: r :: rs) h.2
      have hshape : (p :: q :: r :: rs).dropLast = p :: (q :: r :: rs).dropLast :=
        rfl
      rw [hshape]
      have hshape2 : (q :: r :: rs).dropLast = q :: (r :: rs).dropLast := rfl
      rw [hshape2] at ih ⊢
      simp only [linkedB, Bool.and_eq_true]
      exact ⟨h.1, ih⟩

theorem linkedB_append_last (blocks : List (BlockHash × Block)) :
    ∀ (l : List BlockHash) (p x : BlockHash), linkedB blocks l = true →
      l.getLast? = some p → linkOKB blocks p x = true →
      linkedB blocks (l ++ [x]) = true
  | [], p, x => fun _ hlast _ => by simp at hlast
  | [q], p, x => fun _ hlast hok => by
    have hq : q = p := by simpa using hlast
    subst hq
    simp only [List.cons_append, List.nil_append, linkedB, Bool.and_eq_true]
    exact ⟨hok, trivial⟩
  | q :: r :: rest, p, x => fun h hlast hok => by
    simp only [linkedB, Bool.and_eq_true] at h
    have hlast2 : (r :: rest).getLast? = some p := by simpa using hlast
    have ih := linkedB_append_last blocks (r :: rest) p x h.2 hlast2 hok
    simp only [List.cons_append, linkedB, Bool.and_eq_true]
    refine ⟨h.1, ?_⟩
    simpa [List.cons_append] using ih

theorem linkedB_middle (blocks : List (BlockHash × Block)) :
    ∀ (l1 : List BlockHash) (p q : BlockHash) (l2 : List BlockHash),
      linkedB blocks (l1 ++ p :: q :: l2) = true → linkOKB blocks p q = true
  | [], p, q, l2 => fun h => by
    simp only [List.nil_append, linkedB, Bool.and_eq_true] at h
    exact h.1
  | a :: l1', p, q, l2 => fun h => by
    have hx : linkedB blocks (l1' ++ p :: q :: l2) = true := by
      cases l1' with
      | nil =>
        simp only [List.nil_append, List.cons_append, linkedB,
          Bool.and_eq_true] at h ⊢
        exact h.2
      | cons b l1'' =>
        simp only [List.cons_append, linkedB, Bool.and_eq_true] at h ⊢
        exact h.2
    exact linkedB_middle blocks l1' p q l2 hx

theorem mem_decomp {α : Type} : ∀ (l : List α) (x : α), x ∈ l →
    l.head? ≠ some x → ∃ p l1 l2, l = l1 ++ p :: x :: l2
  | [], x => fun hx _ => absurd hx (by simp)
  | a :: rest, x => fun hx hhead => by
    have hax : ¬ a = x := fun h => hhead (by rw [h]; rfl)
    have hxr : x ∈ rest := by
      rcases List.mem_cons.mp hx with h | h
      · exact absurd h.symm hax
      · exact h
    cases rest with
    | nil => simp at hxr
    | cons b rest' =>
      by_cases hbx : b = x
      · subst hbx
        exact ⟨a, [], rest', rfl⟩
      · have hh2 : (b :: rest').head? ≠ some x := by
          simp only [List.head?_cons, ne_eq, Option.some.injEq]
          exact hbx
        obtain ⟨p, l1, l2, hdec⟩ := mem_decomp (b :: rest') x hxr hh2
        exact ⟨p, a :: l1, l2, by rw [List.cons_append, ← hdec]⟩

theorem getLast?_ne_mid {α : Type} (l1 : List α) (p q : α) (l2 : List α)
    (hnd : (l1 ++ p :: q :: l2).Nodup) :
    (l1 ++ p :: q :: l2).getLast? ≠ some p := by
  intro hlast
  have hre : l1 ++ p :: q :: l2 = (l1 ++ [p]) ++ q :: l2 := by simp
  rw [hre] at hlast hnd
  rw [List.getLast?_append_cons] at hlast
  have hpmem : p ∈ q :: l2 := getLast?_mem _ _ hlast
  have hdisj := (List.nodup_append.mp hnd).2.2
  exact hdisj (by simp) hpmem

theorem linkedB_last_link (blocks : List (BlockHash × Block)) :
    ∀ (l : List BlockHash) (p0 h : BlockHash),
      linkedB blocks (p0 :: l) = true → (p0 :: l).getLast? = some h →
      l ≠ [] → ∃ p, p ∈ p0 :: l ∧ linkOKB blocks p h = true
  | [], p0, h => fun _ _ hne => absurd rfl hne
  | [q], p0, h => fun hl hlast _ => by
    have hq : q = h := by simpa using hlast
    subst hq
    simp only [linkedB, Bool.and_eq_true] at hl
    exact ⟨p0, by simp, hl.1⟩
  | q :: r :: rest, p0, h => fun hl hlast _ => by
    simp only [linkedB, Bool.and_eq_true] at hl
    have hlast2 : (q :: (r :: rest)).getLast? = some h := by simpa using hlast
    obtain ⟨p, hp, hok⟩ :=
      linkedB_last_link blocks (r :: rest) q h
        (by simp only [linkedB, Bool.and_eq_true]; exact hl.2) hlast2 (by simp)
    exact ⟨p, List.mem_cons_of_mem _ hp, hok⟩

/-- Under the chain invariants and nonempty hashes, the last block of a chain
of length at least 2 is not genesis. -/
theorem chainInv_last_not_genesis (hf : Block → BlockHash)
    (hne : ∀ b, (hf b).bytes ≠ []) (c : BlockChain) (inv : ChainInv hf c)
    (lh : BlockHash) (lb : Block) (hl : c.chain.getLast? = some lh)
    (hfind : bfind? c.blocks lh = some lb) (hlen : 2 ≤ c.chain.length) :
    lb.isGenesis = false := by
  obtain ⟨hnil, hhead, hgen, hnd, hmem, hlink, hcons, hwm, htx⟩ := inv
  cases hc : c.chain with
  | nil => exact absurd hc hnil
  | cons p0 l =>
    have hlne : l ≠ [] := by
      intro h0
      rw [hc, h0] at hlen
      simp at hlen
    rw [hc] at hlink hl
    obtain ⟨p, hp, hok⟩ := linkedB_last_link c.blocks l p0 lh hlink hl hlne
    unfold linkOKB at hok
    rw [hfind] at hok
    have hpfx : lb.prefixHash = p := by simpa using hok
    have hpc : p ∈ c.chain := by
      rw [hc]
      exact hp
    have hps := hmem p hpc
    cases hbp : bfind? c.blocks p with
    | none =>
      rw [hbp] at hps
      simp at hps
    | some bp =>
      have hcp : hf bp = p := hcons _ (bfind?_mem hbp)
      have hpne : p.bytes ≠ [] := by
        rw [← hcp]
        exact hne bp
      simp only [Block.isGenesis, hpfx]
      simpa using hpne

/-- The chain invariants are preserved by a `pop_block` that removes a block. -/
theorem chainInv_pop (hf : Block → BlockHash) (c : BlockChain)
    (inv : ChainInv hf c) (lb : Block) (c' : BlockChain)
    (hpop : popBlockE c = .ok (some lb, c')) : ChainInv hf c' := by
  obtain ⟨lh, hl, hfind, hng, hch, hbl, hbal⟩ := popBlockE_some_inv c lb c' hpop
  obtain ⟨hnil, hhead, hgen, hnd, hmem, hlink, hcons, hwm, htx⟩ := inv
  have hlen2 : 2 ≤ c.chain.length := by
    by_contra hx
    push_neg at hx
    cases hc : c.chain with
    | nil => exact hnil hc
    | cons x xs =>
      cases xs with
      | nil =>
        rw [hc] at hhead hl
        simp only [List.head?_cons, Option.some.injEq] at hhead
        have hxlh : x = lh := by simpa using hl
        rw [← hxlh, hhead, hgen] at hfind
        injection hfind with hfind
        rw [← hfind] at hng
        simp [genesisBlock, Block.isGenesis] at hng
      | cons y ys =>
        rw [hc] at hx
        simp at hx
        omega
  have hdecomp : c.chain = c'.chain ++ [lh] := by
    have h1 := List.dropLast_append_getLast hnil
    have h2 : c.chain.getLast hnil = lh := by
      have h3 := List.getLast?_eq_getLast c.chain hnil
      rw [hl] at h3
      injection h3 with h3
      exact h3.symm
    rw [hch, ← h2, h1]
  have hnotin : lh ∉ c'.chain := by
    intro hx
    have hnd2 : (c'.chain ++ [lh]).Nodup := hdecomp ▸ hnd
    have hdisj := (List.nodup_append.mp hnd2).2.2
    exact hdisj hx (by simp)
  have hsub : List.Sublist c'.chain c.chain := by
    rw [hch]
    exact List.dropLast_sublist c.chain
  have hbfind_pres : ∀ q ∈ c'.chain,
      bfind? c'.blocks q = bfind? c.blocks q := by
    intro q hq
    rw [hbl]
    exact bfind?_bremove_ne c.blocks lh q (fun hx => hnotin (hx ▸ hq))
  have hchain' : c'.chain ≠ [] := by
    have : 0 < c'.chain.length := by
      rw [hch, List.length_dropLast]
      omega
    exact List.ne_nil_of_length_pos this
  have hhead' : c'.chain.head? = some (hf genesisBlock) := by
    cases hc : c.chain with
    | nil => exact absurd hc hnil
    | cons x xs =>
      cases xs with
      | nil =>
        rw [hc] at hlen2
        simp at hlen2
      | cons y ys =>
        rw [hc] at hhead
        rw [hch, hc]
        simpa using hhead
  have hgenmem : hf genesisBlock ∈ c'.chain := by
    cases hcc : c'.chain with
    | nil => exact absurd hcc hchain'
    | cons z zs =>
      rw [hcc] at hhead'
      have hz : z = hf genesisBlock := by simpa using hhead'
      rw [hz]
      exact List.mem_cons_self _ _
  refine ⟨hchain', hhead', ?_, ?_, ?_, ?_, ?_, ?_, ?_⟩
  · rw [hbfind_pres _ hgenmem]
    exact hgen
  · exact hsub.nodup hnd
  · intro h hq
    rw [hbfind_pres _ hq]
    exact hmem h (hsub.subset hq)
  · rw [linkedB_congr c.blocks c'.blocks c'.chain hbfind_pres]
    have := linkedB_dropLast c.blocks c.chain hlink
    rw [← hch] at this
    exact this
  · intro p hp
    exact hcons p ((hbl ▸ bremove_sublist c.blocks lh).subset hp)
  · intro p hp
    exact hwm p ((hbl ▸ bremove_sublist c.blocks lh).subset hp)
  · intro p hp
    exact htx p ((hbl ▸ bremove_sublist c.blocks lh).subset hp)

/-- The `pop_until` loop, under the chain invariants with the target present:
either some pop underflows (a panic), or the loop returns with the target as
the new tip and exactly the entries after the target removed. -/
theorem popUntilGo_spec (hf : Block → BlockHash)
    (hne : ∀ b, (hf b).bytes ≠ []) (tgt : BlockHash) :
    ∀ (fuel : Nat) (c : BlockChain), ChainInv hf c → tgt ∈ c.chain →
      c.chain.length ≤ fuel →
      popUntilGo fuel c tgt = .error .underflow ∨
      ∃ c', popUntilGo fuel c tgt = .ok c' ∧
        ∃ removed, c.chain = c'.chain ++ removed ∧
          c'.chain.getLast? = some tgt ∧ tgt ∉ removed := by
  intro fuel
  induction fuel with
  | zero =>
    intro c inv htgt hlen
    have hch : c.chain = [] := List.length_eq_zero.mp (by omega)
    rw [hch] at htgt
    simp at htgt
  | succ f ih =>
    intro c inv htgt hlen
    have hnil : c.chain ≠ [] := inv.1
    have hl : c.chain.getLast? = some (c.chain.getLast hnil) :=
      List.getLast?_eq_getLast c.chain hnil
    have hstep : popUntilGo (f + 1) c tgt =
        (if c.chain.getLast hnil = tgt then .ok c
          else match popBlockE c with
            | .error e => .error e
            | .ok (none, _) => .error .popNone
            | .ok (some _, c') => popUntilGo f c' tgt) := by
      simp only [popUntilGo, hl]
    by_cases htg : c.chain.getLast hnil = tgt
    · rw [if_pos htg] at hstep
      right
      refine ⟨c, hstep, [], by simp, ?_, by simp⟩
      rw [← htg]
      exact hl
    · rw [if_neg htg] at hstep
      have hmem_last : c.chain.getLast hnil ∈ c.chain := List.getLast_mem hnil
      have inv2 := inv
      obtain ⟨-, -, -, -, hmemc, -, -, -, -⟩ := inv2
      have hsome := hmemc _ hmem_last
      cases hfind : bfind? c.blocks (c.chain.getLast hnil) with
      | none =>
        rw [hfind] at hsome
        simp at hsome
      | some lb =>
        have hlen2 : 2 ≤ c.chain.length := by
          by_contra hx
          push_neg at hx
          cases hc : c.chain with
          | nil => exact hnil hc
          | cons x xs =>
            cases xs with
            | nil =>
              rw [hc] at htgt
              simp only [List.mem_singleton] at htgt
              have hgx : c.chain.getLast hnil = x := by
                simp [hc]
              exact htg (by rw [hgx, htgt])
            | cons y ys =>
              rw [hc] at hx
              simp at hx
              omega
        have hngen : lb.isGenesis = false :=
          chainInv_last_not_genesis hf hne c inv _ lb hl hfind hlen2
        have hpopstep : popBlockE c =
            (match mapSub? c.balance lb.miner COINS_PER_MINED_BLOCK with
              | none => .error .underflow
              | some m1 =>
                match popTxs lb.transactions m1 with
                | none => .error .underflow
                | some m2 => .ok (some lb, ⟨c.chain.dropLast,
                    bremove c.blocks (c.chain.getLast hnil), m2⟩)) := by
          unfold popBlockE
          simp only [hl, hfind, hngen, Bool.false_eq_true, if_false]
        cases hsub : mapSub? c.balance lb.miner COINS_PER_MINED_BLOCK with
        | none =>
          left
          rw [hstep, hpopstep, hsub]
        | some m1 =>
          cases htxp : popTxs lb.transactions m1 with
          | none =>
            left
            rw [hstep, hpopstep, hsub]
            simp only [htxp]
          | some m2 =>
            have hpop : popBlockE c = .ok (some lb, ⟨c.chain.dropLast,
                bremove c.blocks (c.chain.getLast hnil), m2⟩) := by
              rw [hpopstep, hsub]
              simp only [htxp]
            have invc2 := chainInv_pop hf c inv lb _ hpop
            have hdec : c.chain = c.chain.dropLast ++ [c.chain.getLast hnil] :=
              (List.dropLast_append_getLast hnil).symm
            have htgt2 : tgt ∈ c.chain.dropLast := by
              rcases List.mem_append.mp (hdec ▸ htgt) with hx | hx
              · exact hx
              · simp only [List.mem_singleton] at hx
                exact absurd hx.symm htg
            have hlen' : (c.chain.dropLast).length ≤ f := by
              rw [List.length_dropLast]
              omega
            have hres := ih ⟨c.chain.dropLast,
              bremove c.blocks (c.chain.getLast hnil), m2⟩ invc2 htgt2 hlen'
            have hstep2 : popUntilGo (f + 1) c tgt =
                popUntilGo f ⟨c.chain.dropLast,
                  bremove c.blocks (c.chain.getLast hnil), m2⟩ tgt := by
              rw [hstep, hpop]
            rcases hres with hu | ⟨c', hok, removed, hchain, hlast, htnot⟩
            · left
              rw [hstep2]
              exact hu
            · right
              refine ⟨c', by rw [hstep2]; exact hok,
                removed ++ [c.chain.getLast hnil], ?_, hlast, ?_⟩
              · have hchain2 : c.chain.dropLast = c'.chain ++ removed := by
                  simpa using hchain
                calc c.chain
                    = c.chain.dropLast ++ [c.chain.getLast hnil] := hdec
                  _ = (c'.chain ++ removed) ++ [c.chain.getLast hnil] := by
                      rw [hchain2]
                  _ = c'.chain ++ (removed ++ [c.chain.getLast hnil]) := by
                      rw [List.append_assoc]
              · simp only [List.mem_append, List.mem_singleton, not_or]
                exact ⟨htnot, fun hx => htg hx.symm⟩

/-- C7 (amended): under the chain invariants with `target_hash` present in
the sequence, `pop_until` either panics because some pop's balance
subtraction underflows `u64`, or it terminates normally with `last_hash()`
equal to the target and exactly the entries that followed the target removed;
no other panic or divergence is possible. -/
theorem popUntil_reaches_target (hf : Block → BlockHash)
    (hne : ∀ b, (hf b).bytes ≠ []) (c : BlockChain) (inv : ChainInv hf c)
    (tgt : BlockHash) (htgt : tgt ∈ c.chain) :
    popUntilE c tgt = .error .underflow ∨
    ∃ c', popUntilE c tgt = .ok c' ∧
      ∃ removed, c.chain = c'.chain ++ removed ∧
        c'.chain.getLast? = some tgt ∧ tgt ∉ removed :=
  popUntilGo_spec hf hne tgt c.chain.length c inv htgt (le_refl _)

/-- Witness for the amended C7: popping a fresh chain to its own tip. -/
theorem popUntil_reaches_target_witness :
    ((∀ b, (injHash b).bytes ≠ []) ∧
      ChainInv injHash (BlockChain.new injHash) ∧
      injHash genesisBlock ∈ (BlockChain.new injHash).chain) ∧
    (popUntilE (BlockChain.new injHash) (injHash genesisBlock) =
        .error .underflow ∨
      ∃ c', popUntilE (BlockChain.new injHash) (injHash genesisBlock) =
          .ok c' ∧
        ∃ removed, (BlockChain.new injHash).chain = c'.chain ++ removed ∧
          c'.chain.getLast? = some (injHash genesisBlock) ∧
          injHash genesisBlock ∉ removed) :=
  ⟨⟨injHash_nonempty, by decide, by decide⟩,
    popUntil_reaches_target injHash injHash_nonempty (BlockChain.new injHash)
      (by decide) (injHash genesisBlock) (by decide)⟩

/-- Counterexample to C7 as stated: a chain satisfying the chain invariants
with the target hash present in the sequence on which `pop_until` panics (a
`u64` balance underflow in `pop_block`) instead of returning with the target
as tip. -/
theorem popUntil_panics_counterexample :
    ChainInv injHash c7xChain ∧ injHash genesisBlock ∈ c7xChain.chain ∧
    popUntilE c7xChain (injHash genesisBlock) = .error .underflow :=
  ⟨by decide, by decide, by decide⟩

/-- Under the chain invariants, an injective hash with nonempty digests, and
a block extending the tip, the new block's hash is not yet in the sequence. -/
theorem append_hash_fresh (hf : Block → BlockHash)
    (hinj : Function.Injective hf) (hne : ∀ b, (hf b).bytes ≠ [])
    (c : BlockChain) (inv : ChainInv hf c) (b : Block)
    (hl : c.chain.getLast? = some b.prefixHash) : hf b ∉ c.chain := by
  intro hmemB
  obtain ⟨hnil, hhead, hgen, hnd, hmemc, hlink, hcons, hwm, htxs⟩ := inv
  have hsome := hmemc _ hmemB
  cases hfind : bfind? c.blocks (hf b) with
  | none =>
    rw [hfind] at hsome
    simp at hsome
  | some bj =>
    have hcb : hf bj = hf b := hcons _ (bfind?_mem hfind)
    have hbj : bj = b := hinj hcb
    subst hbj
    have hlmem : bj.prefixHash ∈ c.chain := getLast?_mem _ _ hl
    have hlne : bj.prefixHash.bytes ≠ [] := by
      have hsome2 := hmemc _ hlmem
      cases hfl : bfind? c.blocks bj.prefixHash with
      | none =>
        rw [hfl] at hsome2
        simp at hsome2
      | some bl =>
        have hclast : hf bl = bj.prefixHash := hcons _ (bfind?_mem hfl)
        rw [← hclast]
        exact hne bl
    by_cases hh : c.chain.head? = some (hf bj)
    · rw [hhead] at hh
      injection hh with hh
      have hgb : genesisBlock = bj := hinj hh
      rw [← hgb] at hlne
      exact hlne rfl
    · obtain ⟨p, l1, l2, hdec⟩ := mem_decomp c.chain (hf bj) hmemB hh
      have hok := linkedB_middle c.blocks l1 p (hf bj) l2 (hdec ▸ hlink)
      unfold linkOKB at hok
      rw [hfind] at hok
      have hppfx : bj.prefixHash = p := by simpa using hok
      have hne2 := getLast?_ne_mid l1 p (hf bj) l2 (hdec ▸ hnd)
      rw [← hdec] at hne2
      rw [hl] at hne2
      exact hne2 (by rw [hppfx])

/-- Appending a fresh non-genesis block shifts the spec ledger of every
address by the block's delta. -/
theorem specBalance_snoc (chain : List BlockHash)
    (blocks : List (BlockHash × Block)) (bal bal' : List (Address × Nat))
    (hB : BlockHash) (B : Block) (hfresh : hB ∉ chain)
    (hng : B.isGenesis = false) (a : Address) :
    specBalance ⟨chain ++ [hB], binsert blocks hB B, bal'⟩ a =
      specBalance ⟨chain, blocks, bal⟩ a + blockDelta a B := by
  simp only [specBalance, List.map_append, List.sum_append]
  have h1 : ∀ h ∈ chain,
      hashDelta (binsert blocks hB B) a h = hashDelta blocks a h := by
    intro h hh
    unfold hashDelta
    rw [bfind?_binsert, if_neg (fun hx => hfresh (by rw [hx]; exact hh))]
  have h2 : hashDelta (binsert blocks hB B) a hB = blockDelta a B := by
    unfold hashDelta
    rw [bfind?_binsert, if_pos rfl]
    simp [hng]
  rw [List.map_congr_left h1]
  simp [h2]

/-- Removing the last (non-genesis) block shifts the spec ledger of every
address back by the block's delta. -/
theorem specBalance_unsnoc (chain' : List BlockHash)
    (blocks : List (BlockHash × Block)) (bal bal' : List (Address × Nat))
    (lh : BlockHash) (lb : Block) (hnotin : lh ∉ chain')
    (hfind : bfind? blocks lh = some lb) (hng : lb.isGenesis = false)
    (a : Address) :
    specBalance ⟨chain', bremove blocks lh, bal'⟩ a =
      specBalance ⟨chain' ++ [lh], blocks, bal⟩ a - blockDelta a lb := by
  simp only [specBalance, List.map_append, List.sum_append]
  have h1 : ∀ h ∈ chain',
      hashDelta (bremove blocks lh) a h = hashDelta blocks a h := by
    intro h hh
    unfold hashDelta
    rw [bfind?_bremove_ne _ _ _ (fun hx => hnotin (by rw [← hx]; exact hh))]
  have h2 : hashDelta blocks a lh = blockDelta a lb := by
    unfold hashDelta
    rw [hfind]
    simp [hng]
  rw [List.map_congr_left h1]
  simp [h2]

/-- The fresh chain is well-formed. -/
theorem wf_new (hf : Block → BlockHash) : WF hf (BlockChain.new hf) := by
  refine ⟨⟨by simp [BlockChain.new], rfl, ?_, by simp [BlockChain.new], ?_,
    rfl, ?_, ?_, ?_⟩, by simp [BlockChain.new], ?_, ?_⟩
  · simp [BlockChain.new, bfind?]
  · intro h hh
    simp only [BlockChain.new, List.mem_singleton] at hh
    subst hh
    simp [bfind?]
  · intro p hp
    simp only [BlockChain.new, List.mem_singleton] at hp
    subst hp
    rfl
  · intro p hp hg
    simp only [BlockChain.new, List.mem_singleton] at hp
    subst hp
    simp [genesisBlock, Block.isGenesis] at hg
  · intro p hp
    simp only [BlockChain.new, List.mem_singleton] at hp
    subst hp
    refine ⟨by simp [genesisBlock], by simp [dupIds, genesisBlock]⟩
  · intro h hs
    simp only [BlockChain.new] at hs ⊢
    by_cases hg : hf genesisBlock = h
    · simp [hg]
    · rw [show bfind? [(hf genesisBlock, genesisBlock)] h = none by
        simp [bfind?, hg]] at hs
      simp at hs
  · intro a
    simp [BlockChain.new, balanceOf, mapGet, mapFind?, specBalance, hashDelta,
      bfind?, genesisBlock, Block.isGenesis]

/-- Well-formedness is preserved by a successful `append_block`. -/
theorem wf_append (hf : Block → BlockHash) (hinj : Function.Injective hf)
    (hne : ∀ b, (hf b).bytes ≠ []) (c : BlockChain) (wf : WF hf c) (b : Block)
    (c' : BlockChain) (h : appendBlock hf c b = .ok (true, c')) :
    WF hf c' := by
  obtain ⟨inv, hknd, hk2c, hbal⟩ := wf
  obtain ⟨hl, hv, hd, m, hm, hc'⟩ := appendBlock_ok_inv hf c b c' h
  have hfresh : hf b ∉ c.chain := append_hash_fresh hf hinj hne c inv b hl
  have hkfresh : ¬ hf b ∈ c.blocks.map Prod.fst := by
    intro hx
    exact hfresh (hk2c _ ((bfind?_isSome_iff _ _).mpr hx))
  have hbins : binsert c.blocks (hf b) b = c.blocks ++ [(hf b, b)] :=
    binsert_fresh b hkfresh
  have inv2 := inv
  obtain ⟨hnil, hhead, hgen, hnd, hmemc, hlink, hcons, hwm, htxs⟩ := inv2
  have hlmem : b.prefixHash ∈ c.chain := getLast?_mem _ _ hl
  have hbng : b.isGenesis = false := by
    have hsome := hmemc _ hlmem
    cases hfl : bfind? c.blocks b.prefixHash with
    | none =>
      rw [hfl] at hsome
      simp at hsome
    | some bl =>
      have hclast : hf bl = b.prefixHash := hcons _ (bfind?_mem hfl)
      have hpne : b.prefixHash.bytes ≠ [] := by
        rw [← hclast]
        exact hne bl
      simp only [Block.isGenesis]
      simpa using hpne
  have hballit := appendBlock_ok_balance hf c b c' h
  subst hc'
  refine ⟨⟨by simp, ?_, ?_, ?_, ?_, ?_, ?_, ?_, ?_⟩, ?_, ?_, ?_⟩
  · cases hc : c.chain with
    | nil => exact absurd hc hnil
    | cons x xs =>
      rw [hc] at hhead
      simpa using hhead
  · simp only
    rw [bfind?_binsert, if_neg ?_]
    · exact hgen
    · intro hx
      apply hfresh
      rw [hx]
      cases hc : c.chain with
      | nil => exact absurd hc hnil
      | cons x xs =>
        rw [hc] at hhead
        have hxg : x = hf genesisBlock := by simpa using hhead
        rw [← hxg]
        exact List.mem_cons_self _ _
  · simp only [List.nodup_append, List.nodup_cons, List.not_mem_nil,
      not_false_eq_true, List.nodup_nil, and_true, true_and]
    refine ⟨hnd, ?_⟩
    intro x hx
    simp only [List.mem_singleton]
    intro he
    exact hfresh (he ▸ hx)
  · intro h' hh'
    simp only at hh' ⊢
    rcases List.mem_append.mp hh' with hx | hx
    · rw [bfind?_binsert, if_neg (fun he => hfresh (by rw [he]; exact hx))]
      exact hmemc _ hx
    · simp only [List.mem_singleton] at hx
      subst hx
      rw [bfind?_binsert, if_pos rfl]
      rfl
  · simp only
    have hcongr : linkedB (binsert c.blocks (hf b) b) c.chain =
        linkedB c.blocks c.chain := by
      apply linkedB_congr
      intro q hq
      rw [bfind?_binsert, if_neg (fun he => hfresh (by rw [he]; exact hq))]
    refine linkedB_append_last _ c.chain b.prefixHash (hf b) ?_ hl ?_
    · rw [hcongr]
      exact hlink
    · unfold linkOKB
      rw [bfind?_binsert, if_pos rfl]
      simp
  · intro p hp
    simp only [hbins] at hp
    rcases List.mem_append.mp hp with hx | hx
    · exact hcons _ hx
    · simp only [List.mem_singleton] at hx
      subst hx
      rfl
  · intro p hp
    simp only [hbins] at hp
    rcases List.mem_append.mp hp with hx | hx
    · exact hwm _ hx
    · simp only [List.mem_singleton] at hx
      subst hx
      intro _
      exact hv
  · intro p hp
    simp only [hbins] at hp
    rcases List.mem_append.mp hp with hx | hx
    · exact htxs _ hx
    · simp only [List.mem_singleton] at hx
      subst hx
      exact ⟨applyTxs_ok_prefixes _ _ _ _ hm, hd⟩
  · simp only [hbins, List.map_append, List.nodup_append, List.map_cons,
      List.map_nil, List.nodup_cons, List.not_mem_nil, not_false_eq_true,
      List.nodup_nil, and_true, true_and]
    refine ⟨hknd, ?_⟩
    intro x hx
    simp only [List.mem_singleton]
    intro he
    exact hkfresh (he ▸ hx)
  · intro h' hs
    simp only at hs ⊢
    by_cases he : hf b = h'
    · rw [he]
      simp
    · rw [bfind?_binsert, if_neg he] at hs
      exact List.mem_append_left _ (hk2c _ hs)
  · intro a
    have h1 := hballit a
    have h2 := specBalance_snoc c.chain c.blocks c.balance
      (mapAdd m b.miner COINS_PER_MINED_BLOCK) (hf b) b hfresh hbng a
    simp only at h1 ⊢
    rw [h2, h1, hbal a]

/-- Well-formedness is preserved by a `pop_block` that removes a block. -/
theorem wf_pop (hf : Block → BlockHash) (c : BlockChain) (wf : WF hf c)
    (lb : Block) (c' : BlockChain) (h : popBlockE c = .ok (some lb, c')) :
    WF hf c' := by
  obtain ⟨inv, hknd, hk2c, hbal⟩ := wf
  have inv' := chainInv_pop hf c inv lb c' h
  obtain ⟨lh, hl, hfind, hng, hch, hbl, hbalp⟩ := popBlockE_some_inv c lb c' h
  have hnil : c.chain ≠ [] := inv.1
  have hdec : c.chain = c'.chain ++ [lh] := by
    have h1 := List.dropLast_append_getLast hnil
    have h2 : c.chain.getLast hnil = lh := by
      have h3 := List.getLast?_eq_getLast c.chain hnil
      rw [hl] at h3
      injection h3 with h3
      exact h3.symm
    rw [hch, ← h2, h1]
  have hnotin : lh ∉ c'.chain := by
    intro hx
    have hnd2 : (c'.chain ++ [lh]).Nodup := hdec ▸ inv.2.2.2.1
    exact (List.nodup_append.mp hnd2).2.2 hx (by simp)
  refine ⟨inv', ?_, ?_, ?_⟩
  · rw [hbl]
    exact ((bremove_sublist c.blocks lh).map Prod.fst).nodup hknd
  · intro h' hs
    rw [hbl] at hs
    by_cases hlh : h' = lh
    · subst hlh
      rw [bfind?_bremove_self hknd] at hs
      simp at hs
    · rw [bfind?_bremove_ne _ _ _ hlh] at hs
      have hmem2 := hk2c _ hs
      rw [hdec] at hmem2
      rcases List.mem_append.mp hmem2 with hx | hx
      · exact hx
      · simp only [List.mem_singleton] at hx
        exact absurd hx hlh
  · intro a
    have h2 := specBalance_unsnoc c'.chain c.blocks c.balance c'.balance lh lb
      hnotin hfind hng a
    have hsc : specBalance ⟨c'.chain ++ [lh], c.blocks, c.balance⟩ a =
        specBalance c a := by
      rw [← hdec]
    have hsc2 : specBalance ⟨c'.chain, bremove c.blocks lh, c'.balance⟩ a =
        specBalance c' a := by
      rw [← hbl]
    rw [hsc, hsc2] at h2
    have := hbalp a
    have hb2 := hbal a
    omega

/-- Well-formedness is preserved by the `pop_until` loop. -/
theorem wf_popUntilGo (hf : Block → BlockHash) :
    ∀ (fuel : Nat) (c : BlockChain) (tgt : BlockHash) (c' : BlockChain),
      WF hf c → popUntilGo fuel c tgt = .ok c' → WF hf c' := by
  intro fuel
  induction fuel with
  | zero =>
    intro c tgt c' _ h
    simp [popUntilGo] at h
  | succ f ih =>
    intro c tgt c' wf h
    unfold popUntilGo at h
    split at h
    · exact absurd h (by simp)
    rename_i lh hl
    split at h
    · injection h with h
      rw [← h]
      exact wf
    · split at h
      · exact absurd h (by simp)
      · exact absurd h (by simp)
      · rename_i b c2 hpop
        exact ih c2 tgt c' (wf_pop hf c wf b c2 hpop) h

/-- Well-formedness is preserved by a fully successful `append_blocks`. -/
theorem wf_appendBlocks (hf : Block → BlockHash)
    (hinj : Function.Injective hf) (hne : ∀ b, (hf b).bytes ≠ []) :
    ∀ (bs : List Block) (c c' : BlockChain), WF hf c →
      appendBlocks hf c bs = .ok (true, c') → WF hf c' := by
  intro bs
  induction bs with
  | nil =>
    intro c c' wf h
    simp only [appendBlocks, Except.ok.injEq, Prod.mk.injEq, true_and] at h
    rw [← h]
    exact wf
  | cons b bs ih =>
    intro c c' wf h
    simp only [appendBlocks] at h
    split at h
    · exact absurd h (by simp)
    · simp at h
    · rename_i c1 happ
      exact ih c1 c' (wf_append hf hinj hne c wf b c1 happ) h

/-- Well-formedness is preserved by any trace of chain operations in which
every append reports `ok`. -/
theorem wf_runOps (hf : Block → BlockHash) (hinj : Function.Injective hf)
    (hne : ∀ b, (hf b).bytes ≠ []) :
    ∀ (ops : List ChainOp) (c c' : BlockChain), WF hf c →
      runOps hf ops c = .ok (true, c') → WF hf c' := by
  intro ops
  induction ops with
  | nil =>
    intro c c' wf h
    simp only [runOps, Except.ok.injEq, Prod.mk.injEq, true_and] at h
    rw [← h]
    exact wf
  | cons op ops ih =>
    intro c c' wf h
    simp only [runOps] at h
    split at h
    · exact absurd h (by simp)
    rename_i b1 c1 hstep
    split at h
    · exact absurd h (by simp)
    rename_i b2 c2 hrest
    simp only [Except.ok.injEq, Prod.mk.injEq, Bool.and_eq_true] at h
    obtain ⟨⟨hb1, hb2⟩, hc2⟩ := h
    subst hb1
    subst hb2
    subst hc2
    have wf1 : WF hf c1 := by
      cases op with
      | append b =>
        exact wf_append hf hinj hne c wf b c1 hstep
      | appendMany bs =>
        exact wf_appendBlocks hf hinj hne bs c c1 wf hstep
      | pop =>
        cases hp : popBlockE c with
        | error e =>
          simp [runOp, hp, Except.map] at hstep
        | ok p =>
          obtain ⟨r, cr⟩ := p
          simp only [runOp, hp, Except.map, Except.ok.injEq,
            Prod.mk.injEq, true_and] at hstep
          cases r with
          | none =>
            obtain ⟨hceq, -⟩ := popBlockE_none_inv c cr hp
            rw [← hstep, hceq]
            exact wf
          | some b =>
            rw [← hstep]
            exact wf_pop hf c wf b cr hp
      | popTo tgt =>
        cases hp : popUntilE c tgt with
        | error e =>
          simp [runOp, hp, Except.map] at hstep
        | ok cr =>
          simp only [runOp, hp, Except.map, Except.ok.injEq,
            Prod.mk.injEq, true_and] at hstep
          rw [← hstep]
          unfold popUntilE at hp
          exact wf_popUntilGo hf c.chain.length c tgt cr wf hp
    exact ih c1 _ wf1 hrest

/-- C3 (amended): on every chain reachable from a fresh chain by chain
operations in which every append returned `ok` (a failed append may leave
partially applied balance effects), and for an injective hash model with
nonempty digests, `balance_of(a)` equals the spec's ledger sum of credits
minus debits over the blocks currently in the sequence. -/
theorem balanceOf_eq_specBalance (hf : Block → BlockHash)
    (hinj : Function.Injective hf) (hne : ∀ b, (hf b).bytes ≠ [])
    (c : BlockChain) (hreach : ReachableOk hf c) (a : Address) :
    (balanceOf c a : Int) = specBalance c a := by
  obtain ⟨ops, hops⟩ := hreach
  exact (wf_runOps hf hinj hne ops (BlockChain.new hf) c (wf_new hf)
    hops).2.2.2 a

/-- Witness for the amended C3 at the fresh chain. -/
theorem balanceOf_eq_specBalance_witness :
    (Function.Injective injHash ∧ (∀ b, (injHash b).bytes ≠ []) ∧
      ReachableOk injHash (BlockChain.new injHash)) ∧
    (balanceOf (BlockChain.new injHash) 0 : Int) =
      specBalance (BlockChain.new injHash) 0 :=
  ⟨⟨injHash_injective, injHash_nonempty, ⟨[], rfl⟩⟩,
    balanceOf_eq_specBalance injHash injHash_injective injHash_nonempty
      (BlockChain.new injHash) ⟨[], rfl⟩ 0⟩

/-- Counterexample to C3 as stated: after a trace that includes an append
returning `err`, `balance_of` no longer equals the spec's ledger sum —
address 1 holds 0 coins although the blocks in the sequence credit it 1000. -/
theorem balance_sum_counterexample :
    ¬ (∀ hf : Block → BlockHash, Function.Injective hf →
        (∀ b, (hf b).bytes ≠ []) → ∀ c, Reachable hf c →
        ∀ a, (balanceOf c a : Int) = specBalance c a) := by
  intro hcl
  have h1 := hcl injHash injHash_injective injHash_nonempty c3xChain
    ⟨c3xOps, false, by decide⟩ 1
  revert h1
  decide

/-- Witness for C2 at a node with no candidate (the no-candidate abort). -/
theorem achieveConsensus_spec_witness :
    achieveConsensus injHash (fun _ => none) 1 c2wNode = .ok c2wNode ∧
    (c2wNode.blockchain.chain.length ≤ c2wNode.blockchain.chain.length ∧
      (c2wNode.blockchain = c2wNode.blockchain ∨
        (∃ bb, c2wNode.better = some bb ∧
          c2wNode.blockchain.chain.length = bb.length ∧
          c2wNode.blockchain.chain.length < bb.length ∧
          c2wNode.nextNonce = 0 ∧
          ∃ tip, c2wNode.blockchain.chain.getLast? = some tip ∧
            c2wNode.mempool = ⟨[], [], c2wNode.blockchain.balance, tip⟩))) :=
  ⟨rfl, achieveConsensus_spec injHash (fun _ => none) 1 c2wNode c2wNode rfl⟩

/-- Witness for C5 at a concrete mempool and transaction (a successful add:
sender 1 holds 50 and sends 30 to address 2 against the current tip). -/
theorem mempool_add_spec_witness :
    (((⟨[], [], [(1, 50)], ⟨[7]⟩⟩ : MemPool).addTransaction
        ⟨9, ⟨[7]⟩, ⟨1, 2, 30⟩⟩).1 = false ↔
      ((⟨9, ⟨[7]⟩, ⟨1, 2, 30⟩⟩ : BlockTransaction).prefixHash ≠
          (⟨[], [], [(1, 50)], ⟨[7]⟩⟩ : MemPool).prefixHash ∨
        (⟨9, ⟨[7]⟩, ⟨1, 2, 30⟩⟩ : BlockTransaction).id ∈
          (⟨[], [], [(1, 50)], ⟨[7]⟩⟩ : MemPool).transactionIds ∨
        mapGet (⟨[], [], [(1, 50)], ⟨[7]⟩⟩ : MemPool).balance
            (⟨9, ⟨[7]⟩, ⟨1, 2, 30⟩⟩ : BlockTransaction).info.sender <
          (⟨9, ⟨[7]⟩, ⟨1, 2, 30⟩⟩ : BlockTransaction).info.amount)) ∧
    (((⟨[], [], [(1, 50)], ⟨[7]⟩⟩ : MemPool).addTransaction
        ⟨9, ⟨[7]⟩, ⟨1, 2, 30⟩⟩).1 = false →
      ((⟨[], [], [(1, 50)], ⟨[7]⟩⟩ : MemPool).addTransaction
        ⟨9, ⟨[7]⟩, ⟨1, 2, 30⟩⟩).2 = ⟨[], [], [(1, 50)], ⟨[7]⟩⟩) ∧
    (((⟨[], [], [(1, 50)], ⟨[7]⟩⟩ : MemPool).addTransaction
        ⟨9, ⟨[7]⟩, ⟨1, 2, 30⟩⟩).1 = true →
      (((⟨[], [], [(1, 50)], ⟨[7]⟩⟩ : MemPool).addTransaction
          ⟨9, ⟨[7]⟩, ⟨1, 2, 30⟩⟩).2.transactions =
        (⟨[], [], [(1, 50)], ⟨[7]⟩⟩ : MemPool).transactions ++
          [⟨9, ⟨[7]⟩, ⟨1, 2, 30⟩⟩] ∧
      ((⟨[], [], [(1, 50)], ⟨[7]⟩⟩ : MemPool).addTransaction
          ⟨9, ⟨[7]⟩, ⟨1, 2, 30⟩⟩).2.transactionIds =
        (⟨[], [], [(1, 50)], ⟨[7]⟩⟩ : MemPool).transactionIds ++
          [(⟨9, ⟨[7]⟩, ⟨1, 2, 30⟩⟩ : BlockTransaction).id] ∧
      ((⟨[], [], [(1, 50)], ⟨[7]⟩⟩ : MemPool).addTransaction
          ⟨9, ⟨[7]⟩, ⟨1, 2, 30⟩⟩).2.prefixHash =
        (⟨[], [], [(1, 50)], ⟨[7]⟩⟩ : MemPool).prefixHash ∧
      ∀ a, (mapGet ((⟨[], [], [(1, 50)], ⟨[7]⟩⟩ : MemPool).addTransaction
            ⟨9, ⟨[7]⟩, ⟨1, 2, 30⟩⟩).2.balance a : Int) =
          mapGet (⟨[], [], [(1, 50)], ⟨[7]⟩⟩ : MemPool).balance a +
            txDelta a ⟨9, ⟨[7]⟩, ⟨1, 2, 30⟩⟩)) :=
  mempool_add_spec ⟨[], [], [(1, 50)], ⟨[7]⟩⟩ ⟨9, ⟨[7]⟩, ⟨1, 2, 30⟩⟩
